import Mathlib

/-!
Verification of the chunking core of the `rag-chunking-challenge` repository.

The chunking layer (`src/chunkers/base.py`, `fixed.py`, `sentence.py`,
`semantic.py`) is shallowly embedded below:

* Python `str.split()` (whitespace split, empty pieces dropped) → `pySplit`;
* Python `range(start, stop, step)` (with its `ValueError` on a zero step)
  → `pyRange` / the error branch of `fixedChunk`;
* Python slices `words[i : j]` (step 1) → `pySlice`;
* `FixedChunker.chunk` → `fixedChunk` / `fixedChunkWords`;
* `SentenceChunker.chunk` → `sentenceChunk` (over the sentence list produced
  by the external `nltk.sent_tokenize` collaborator) / `sentenceChunkText`;
* `SemanticChunker.chunk` → `semanticChunk` / `semanticChunkText`, with the
  embedding collaborator and `cosine_similarity` abstracted into a rational
  valued function `sim : ℕ → ℚ`, where `sim i` stands for
  `cosine_similarity(embeddings[i-1], embeddings[i])` (the chunker only ever
  compares these values against the threshold and averages them);
* `numpy.mean` → `ratMean`, Python `round(x, 3)` → `round3` (round half to
  even, in exact rational arithmetic).

Python integers are modelled as `ℤ` (`chunk_size`, `overlap` may be
non-positive); list indices that the code keeps non-negative are `ℕ`.
The repository defines no `InvalidConfiguration` exception and performs no
configuration validation; consequently the only error the embedded code can
produce is Python's `ValueError` raised by `range(0, n, 0)`.
-/

/-- Errors the embedded Python code can actually raise.  `valueError` models
the `ValueError` raised by `range()` when its third argument is zero (the
repository defines no exception classes of its own). -/
inductive PyErr where
  | valueError : PyErr
deriving DecidableEq

/-- Helper for `pySplit`: walks the character list, accumulating the current
word in `acc`; whitespace closes the current word (if non-empty), mirroring
Python `str.split()` with no arguments. -/
def pySplitChars : List Char → List Char → List String
  | [], acc => if acc.isEmpty then [] else [String.mk acc]
  | c :: rest, acc =>
    if c.isWhitespace then
      (if acc.isEmpty then pySplitChars rest [] else String.mk acc :: pySplitChars rest [])
    else pySplitChars rest (acc ++ [c])

/-- Model of Python `text.split()`: split on runs of whitespace, dropping
empty pieces. -/
def pySplit (s : String) : List String :=
  pySplitChars s.data []

/-- Model of Python `len(sentence.split())`. -/
def wordCount (s : String) : ℕ :=
  (pySplit s).length

/-- Number of elements of Python `range(start, stop, step)` for `step ≠ 0`
(`⌈(stop - start) / step⌉`, clipped at zero). -/
def pyRangeLen (start stop step : ℤ) : ℕ :=
  if 0 < step then (((stop - start) + step - 1) / step).toNat
  else if step < 0 then (((start - stop) + (-step) - 1) / (-step)).toNat
  else 0

/-- Model of Python `range(start, stop, step)` for `step ≠ 0`. -/
def pyRange (start stop step : ℤ) : List ℤ :=
  (List.range (pyRangeLen start stop step)).map (fun (k : ℕ) => start + (k : ℤ) * step)

/-- Model of a Python step-1 slice `l[a : b]` (negative indices count from the
end, out-of-range indices are clipped). -/
def pySlice {α : Type} (l : List α) (a b : ℤ) : List α :=
  (l.drop (if a < 0 then max ((l.length : ℤ) + a) 0 else min a (l.length : ℤ)).toNat).take
    ((if b < 0 then max ((l.length : ℤ) + b) 0 else min b (l.length : ℤ)) -
      (if a < 0 then max ((l.length : ℤ) + a) 0 else min a (l.length : ℤ))).toNat

/-- A chunk record produced by `FixedChunker.chunk` (`src/chunkers/fixed.py`):
the dict `{"id": …, "text": …, "meta": {"start_word": …, "end_word": …,
"total_words": …}}` flattened into a structure. -/
structure FixedChunk where
  id : ℕ
  text : String
  start_word : ℤ
  end_word : ℤ
  total_words : ℤ
deriving DecidableEq

/-- Body of `FixedChunker.chunk` after `text.split()`:
`step = chunk_size - overlap`; `for i in range(0, total_words, step)` emits
`words[i : i + chunk_size]` with its metadata.  A zero step makes `range`
raise `ValueError` before any iteration. -/
def fixedChunkWords (chunkSize overlap : ℤ) (words : List String) : Except PyErr (List FixedChunk) :=
  let step := chunkSize - overlap
  let totalWords : ℤ := words.length
  if step = 0 then .error .valueError
  else
    .ok ((pyRange 0 totalWords step).enum.map (fun p =>
      let i := p.2
      let chunkWords := pySlice words i (i + chunkSize)
      { id := p.1
        text := String.intercalate " " chunkWords
        start_word := i
        end_word := i + chunkWords.length
        total_words := totalWords }))

/-- `FixedChunker.chunk` (`src/chunkers/fixed.py`). -/
def fixedChunk (chunkSize overlap : ℤ) (text : String) : Except PyErr (List FixedChunk) :=
  fixedChunkWords chunkSize overlap (pySplit text)

/-- A chunk record produced by `SentenceChunker.chunk`
(`src/chunkers/sentence.py`). -/
structure SentChunk where
  id : ℕ
  text : String
  start_sentence : ℕ
  end_sentence : ℕ
  total_sentences : ℕ
deriving DecidableEq

/-- The inner packing loop of `SentenceChunker.chunk`: starting with running
word count `wc` and chunk-nonemptiness flag `nonempty`, returns how many of
the remaining sentences are collected into the current chunk.  A sentence is
refused exactly when `word_count + sentence_words > chunk_size` and the chunk
already has content. -/
def packCount (chunkSize : ℤ) (wc : ℕ) (nonempty : Bool) : List String → ℕ
  | [] => 0
  | s :: rest =>
    if (wc : ℤ) + wordCount s > chunkSize ∧ nonempty = true then 0
    else packCount chunkSize (wc + wordCount s) true rest + 1

/-- `overlap_cap = max(0, min(self.overlap, total_sentences - 1))` from
`SentenceChunker.chunk`. -/
def overlapCap (overlap : ℤ) (total : ℕ) : ℕ :=
  (max 0 (min overlap ((total : ℤ) - 1))).toNat

/-- The outer `while i < total_sentences` loop of `SentenceChunker.chunk`.
Each iteration packs `packCount` sentences starting at cursor `i` (with the
dead-in-practice force-add and break branches of the source retained), emits
one chunk, and applies the sliding-window rewind
`i = max(start_idx + 1, i - overlap_cap)` when `overlap_cap > 0`.  The loop
is driven by explicit fuel; since the cursor strictly increases each
iteration, fuel `total` suffices (proved below). -/
def sentLoop (chunkSize : ℤ) (cap : ℕ) (sents : List String) (total : ℕ) :
    ℕ → ℕ → List SentChunk → List SentChunk
  | 0, _, acc => acc
  | fuel + 1, i, acc =>
    if i < total then
      let k0 := packCount chunkSize 0 false (sents.drop i)
      -- `if not current_chunk and i < total_sentences: force add`
      let k1 := if k0 = 0 ∧ i + k0 < total then k0 + 1 else k0
      -- `if not current_chunk: break`
      if k1 = 0 then acc
      else
        let j := i + k1
        let c : SentChunk :=
          { id := acc.length
            text := String.intercalate " " ((sents.drop i).take k1)
            start_sentence := i
            end_sentence := j - 1
            total_sentences := total }
        let iNext := if 0 < cap then max (i + 1) (j - cap) else j
        sentLoop chunkSize cap sents total fuel iNext (acc ++ [c])
    else acc

/-- `SentenceChunker.chunk` over the sentence list returned by the external
`nltk.sent_tokenize` collaborator. -/
def sentenceChunk (chunkSize overlap : ℤ) (sents : List String) : List SentChunk :=
  let total := sents.length
  if total = 0 then []
  else sentLoop chunkSize (overlapCap overlap total) sents total total 0 []

/-- `SentenceChunker.chunk` on raw text, with the sentence boundary detector
(`nltk.sent_tokenize`) abstracted as `tok`. -/
def sentenceChunkText (tok : String → List String) (chunkSize overlap : ℤ) (text : String) :
    List SentChunk :=
  sentenceChunk chunkSize overlap (tok text)

/-- A chunk record produced by `SemanticChunker.chunk`
(`src/chunkers/semantic.py`). -/
structure SemChunk where
  id : ℕ
  text : String
  start_sentence : ℕ
  end_sentence : ℕ
  avg_similarity : ℚ
  total_sentences : ℕ
deriving DecidableEq

/-- Floor of a rational, computed with floor division of the numerator by the
denominator (kept explicit so concrete witnesses reduce in the kernel). -/
def ratFloor (q : ℚ) : ℤ :=
  Int.fdiv q.num q.den

/-- Round a rational to the nearest integer, ties to even — the behaviour of
Python's built-in `round` (modelled in exact arithmetic). -/
def roundHalfEven (q : ℚ) : ℤ :=
  let f := ratFloor q
  let frac := q - f
  if frac < 1 / 2 then f
  else if 1 / 2 < frac then f + 1
  else if f % 2 = 0 then f else f + 1

/-- Python `round(x, 3)` as used in `SemanticChunker._finalize_chunk`. -/
def round3 (q : ℚ) : ℚ :=
  (roundHalfEven (q * 1000) : ℚ) / 1000

/-- `numpy.mean` over the recorded similarities, with the source's explicit
default: `float(np.mean(similarities)) if similarities else 1.0`. -/
def ratMean (l : List ℚ) : ℚ :=
  if l = [] then 1 else l.sum / l.length

/-- `SemanticChunker._finalize_chunk`: append one chunk record carrying
`start_sentence`, `end_sentence`, `avg_similarity` (mean of the recorded
pair similarities, default `1.0`, rounded to three decimals) and
`total_sentences`; the new record's `id` is the current chunk count. -/
def finalizeChunk (chunks : List SemChunk) (cur : List String) (startIdx endIdx : ℕ)
    (sims : List ℚ) (total : ℕ) : List SemChunk :=
  chunks ++
    [{ id := chunks.length
       text := String.intercalate " " cur
       start_sentence := startIdx
       end_sentence := endIdx
       avg_similarity := round3 (ratMean sims)
       total_sentences := total }]

/-- Loop state of `SemanticChunker.chunk`: emitted chunks, current chunk's
sentences, similarities recorded inside the current chunk, the chunk's start
index, and the running word count. -/
structure SemState where
  chunks : List SemChunk
  cur : List String
  simsIn : List ℚ
  startIdx : ℕ
  wc : ℕ

/-- One iteration of the `for i, sentence in enumerate(sentences)` loop of
`SemanticChunker.chunk`: first the word-budget check (closing the current
chunk when `word_count + sentence_words > chunk_size`), then — only if the
(possibly refreshed) current chunk is non-empty and `i > 0` — the similarity
check against `similarity_threshold` (`sim i` is the cosine similarity of
sentences `i-1` and `i`); finally the sentence is appended to the current
chunk. -/
def semStep (chunkSize : ℤ) (threshold : ℚ) (sim : ℕ → ℚ) (total : ℕ)
    (st : SemState) (i : ℕ) (s : String) : SemState :=
  let sw := wordCount s
  let st1 :=
    if st.cur ≠ [] ∧ (st.wc : ℤ) + sw > chunkSize then
      { chunks := finalizeChunk st.chunks st.cur st.startIdx (i - 1) st.simsIn total
        cur := []
        simsIn := []
        startIdx := i
        wc := 0 }
    else st
  let st2 :=
    if st1.cur ≠ [] ∧ 0 < i then
      if sim i < threshold then
        { chunks := finalizeChunk st1.chunks st1.cur st1.startIdx (i - 1) st1.simsIn total
          cur := []
          simsIn := []
          startIdx := i
          wc := 0 }
      else { st1 with simsIn := st1.simsIn ++ [sim i] }
    else st1
  { st2 with cur := st2.cur ++ [s], wc := st2.wc + sw }

/-- The full sentence loop of `SemanticChunker.chunk`, walking the sentence
list with its enumeration index. -/
def semRun (chunkSize : ℤ) (threshold : ℚ) (sim : ℕ → ℚ) (total : ℕ) :
    ℕ → List String → SemState → SemState
  | _, [], st => st
  | i, s :: rest, st =>
    semRun chunkSize threshold sim total (i + 1) rest (semStep chunkSize threshold sim total st i s)

/-- `SemanticChunker.chunk` over the sentence list, with the embedding
collaborator and `cosine_similarity` abstracted into `sim` (`sim i` is the
similarity between sentences `i-1` and `i`).  The early return on an empty
sentence list happens before the embedding collaborator is consulted. -/
def semanticChunk (chunkSize : ℤ) (threshold : ℚ) (sim : ℕ → ℚ) (sents : List String) :
    List SemChunk :=
  if sents = [] then []
  else
    let total := sents.length
    let st := semRun chunkSize threshold sim total 0 sents ⟨[], [], [], 0, 0⟩
    if st.cur = [] then st.chunks
    else finalizeChunk st.chunks st.cur st.startIdx (total - 1) st.simsIn total

/-- `SemanticChunker.chunk` on raw text, with the sentence tokenizer
abstracted as `tok`. -/
def semanticChunkText (tok : String → List String) (chunkSize : ℤ) (threshold : ℚ)
    (sim : ℕ → ℚ) (text : String) : List SemChunk :=
  semanticChunk chunkSize threshold sim (tok text)

/-- Total word count of the `n` sentences starting at index `a`. -/
def wSum (sents : List String) (a n : ℕ) : ℕ :=
  (((sents.drop a).take n).map wordCount).sum

/-- Correctness facts for one record emitted by the sentence chunker: a
non-empty sentence range inside the input, the verbatim metadata, the text as
the single-space join of whole sentences, the packing-loop budget rule (all
sentences after the first fit within `chunk_size`) and its maximality (the
chunk closed because the next sentence would not fit). -/
def GoodSent (cs : ℤ) (total : ℕ) (sents : List String) (c : SentChunk) : Prop :=
  c.start_sentence ≤ c.end_sentence ∧
  c.end_sentence < total ∧
  c.total_sentences = total ∧
  c.text = String.intercalate " "
    ((sents.drop c.start_sentence).take (c.end_sentence + 1 - c.start_sentence)) ∧
  (∀ n, 2 ≤ n → n ≤ c.end_sentence + 1 - c.start_sentence →
    (wSum sents c.start_sentence n : ℤ) ≤ cs) ∧
  (c.end_sentence + 1 < total →
    (wSum sents c.start_sentence (c.end_sentence + 2 - c.start_sentence) : ℤ) > cs)

/-- Relation between consecutive chunks of the sentence chunker: the next
chunk resumes at `max (start_idx + 1) (cursor - overlap_cap)`, which strictly
advances, never passes the previous chunk's end by more than one, and the
chunk ends never decrease. -/
def SentStep (cap : ℕ) (a b : SentChunk) : Prop :=
  b.start_sentence = max (a.start_sentence + 1) (a.end_sentence + 1 - cap) ∧
  b.start_sentence ≤ a.end_sentence + 1 ∧
  a.start_sentence < b.start_sentence ∧
  a.end_sentence ≤ b.end_sentence

/-- Loop invariant of the sentence chunker's outer `while` loop, relating the
cursor `i` to the accumulated chunk list. -/
def SentInv (cs : ℤ) (cap total : ℕ) (sents : List String) (i : ℕ)
    (acc : List SentChunk) : Prop :=
  acc.map SentChunk.id = List.range acc.length ∧
  (∀ c ∈ acc, GoodSent cs total sents c) ∧
  List.Chain' (SentStep cap) acc ∧
  (∀ h : acc ≠ [], (acc.head h).start_sentence = 0) ∧
  i ≤ total ∧
  (acc = [] → i = 0) ∧
  (∀ h : acc ≠ [],
    i = max ((acc.getLast h).start_sentence + 1) ((acc.getLast h).end_sentence + 1 - cap) ∧
    ((wSum sents i ((acc.getLast h).end_sentence + 1 - i) : ℤ) ≤ cs ∨
      i = (acc.getLast h).end_sentence + 1))

/-- Correctness facts for one record emitted by the semantic chunker: a
non-empty sentence range inside the input, the metadata fields, the text as
the single-space join of whole sentences, and `avg_similarity` as the rounded
mean of exactly the consecutive-pair similarities recorded inside the chunk
(`sim j` for each `j` in `(start_sentence, end_sentence]`), defaulting to `1`
for a single-sentence chunk. -/
def GoodSem (sim : ℕ → ℚ) (total : ℕ) (sents : List String) (c : SemChunk) : Prop :=
  c.start_sentence ≤ c.end_sentence ∧
  c.end_sentence < total ∧
  c.total_sentences = total ∧
  c.text = String.intercalate " "
    ((sents.drop c.start_sentence).take (c.end_sentence + 1 - c.start_sentence)) ∧
  c.avg_similarity = round3 (ratMean
    ((List.range' (c.start_sentence + 1) (c.end_sentence - c.start_sentence)).map sim))

/-- The semantic chunker's emitted chunks partition `[0, nextStart)`: each
chunk resumes exactly where the previous one ended. -/
def semChain (chunks : List SemChunk) (nextStart : ℕ) : Prop :=
  List.Chain' (fun a b => b.start_sentence = a.end_sentence + 1) chunks ∧
  (∀ h : chunks ≠ [], (chunks.head h).start_sentence = 0 ∧
    (chunks.getLast h).end_sentence + 1 = nextStart) ∧
  (chunks = [] → nextStart = 0)

/-- Loop invariant of `SemanticChunker.chunk`'s sentence loop, relating the
enumeration index `i` to the loop state. -/
def SemInv (sim : ℕ → ℚ) (total : ℕ) (sents : List String) (i : ℕ) (st : SemState) : Prop :=
  st.startIdx ≤ i ∧ i ≤ total ∧
  st.cur = (sents.drop st.startIdx).take (i - st.startIdx) ∧
  (st.cur = [] → st.startIdx = i) ∧
  st.simsIn = (List.range' (st.startIdx + 1) (i - st.startIdx - 1)).map sim ∧
  st.chunks.map SemChunk.id = List.range st.chunks.length ∧
  (∀ c ∈ st.chunks, GoodSem sim total sents c) ∧
  semChain st.chunks st.startIdx

/-! ### Basic facts about the Python-primitive models -/

lemma pySplitChars_all_ws (l : List Char) (h : ∀ c ∈ l, c.isWhitespace = true) :
    pySplitChars l [] = [] := by
  induction l with
  | nil => simp [pySplitChars]
  | cons c rest ih =>
    have hc := h c (by simp)
    simp only [pySplitChars, hc, if_true, List.isEmpty_nil, if_pos rfl]
    exact ih (fun d hd => h d (by simp [hd]))

/-- A whitespace-only string splits into no words (model of Python
`"   ".split() == []`). -/
lemma pySplit_all_ws (s : String) (h : ∀ c ∈ s.data, c.isWhitespace = true) :
    pySplit s = [] :=
  pySplitChars_all_ws s.data h

lemma pyRange_length (start stop step : ℤ) :
    (pyRange start stop step).length = pyRangeLen start stop step := by
  unfold pyRange
  rw [List.length_map, List.length_range]

lemma pyRange_getElem (start stop step : ℤ) (k : ℕ)
    (hk : k < (pyRange start stop step).length) :
    (pyRange start stop step)[k] = start + (k : ℤ) * step := by
  simp only [pyRange, List.getElem_map, List.getElem_range]

/-- Python `range(0, n, step)` with `n ≥ 0` and a negative step is empty. -/
lemma pyRangeLen_neg_step (n step : ℤ) (hn : 0 ≤ n) (hstep : step < 0) :
    pyRangeLen 0 n step = 0 := by
  unfold pyRangeLen
  rw [if_neg (by omega), if_pos hstep]
  have hpos : 0 < -step := by omega
  have : (0 - n + -step - 1) / -step < 1 := by
    rw [Int.ediv_lt_iff_lt_mul hpos]
    omega
  omega

/-- Element bound: every position emitted by `range(0, n, step)` with a
positive step is below `n`. -/
lemma pyRangeLen_mul_lt (n step : ℤ) (hstep : 0 < step) (k : ℕ)
    (hk : k < pyRangeLen 0 n step) : (k : ℤ) * step < n := by
  unfold pyRangeLen at hk
  rw [if_pos hstep] at hk
  have h1 : (k : ℤ) < (n - 0 + step - 1) / step := by omega
  have h2 : ((k : ℤ) + 1) * step ≤ n - 0 + step - 1 := by
    rw [← Int.le_ediv_iff_mul_le hstep]
    omega
  nlinarith

/-- Completeness: for `0 ≤ x < n`, position `x` is covered by the range
element `(x / step) * step`. -/
lemma pyRangeLen_cover (n step : ℤ) (hstep : 0 < step) (x : ℤ) (hx0 : 0 ≤ x) (hxn : x < n) :
    (x / step).toNat < pyRangeLen 0 n step ∧
      ((x / step).toNat : ℤ) * step ≤ x ∧ x < ((x / step).toNat : ℤ) * step + step := by
  have hq0 : 0 ≤ x / step := Int.ediv_nonneg hx0 (by omega)
  have hqc : ((x / step).toNat : ℤ) = x / step := Int.toNat_of_nonneg hq0
  have hmod := Int.emod_nonneg x (show step ≠ 0 by omega)
  have hmodlt := Int.emod_lt_of_pos x hstep
  have hdm := Int.ediv_add_emod x step
  constructor
  · unfold pyRangeLen
    rw [if_pos hstep]
    have h2 : (x / step + 1) * step ≤ n - 0 + step - 1 := by nlinarith
    have h3 : x / step + 1 ≤ (n - 0 + step - 1) / step := by
      rw [Int.le_ediv_iff_mul_le hstep]; exact h2
    omega
  · constructor
    · rw [hqc]; nlinarith
    · rw [hqc]; nlinarith

/-- A step-1 Python slice `l[a : b]` with non-negative endpoints is
`drop a ∘ take (b - a)`. -/
lemma pySlice_nonneg {α : Type} (l : List α) (a b : ℤ) (ha : 0 ≤ a) (hb : 0 ≤ b) :
    pySlice l a b = (l.drop a.toNat).take (b - a).toNat := by
  unfold pySlice
  rw [if_neg (by omega), if_neg (by omega)]
  by_cases hA : a ≤ (l.length : ℤ)
  · have h1 : (min a (l.length : ℤ)).toNat = a.toNat := by omega
    rw [h1, List.take_eq_take]
    simp only [List.length_drop]
    omega
  · have h1 : (min a (l.length : ℤ)).toNat = l.length := by omega
    have h2 : l.length ≤ a.toNat := by omega
    rw [h1, List.drop_length, List.drop_eq_nil_of_le h2]
    simp

/-! ### FixedChunker: full characterization for valid configurations -/

/-- Characterization of `FixedChunker.chunk` on the split word list, for
`chunk_size ≥ 1` and `0 ≤ overlap < chunk_size`: the call succeeds, produces
`⌈total / step⌉` chunks, and the `k`-th chunk is words
`[k·step, min (k·step + chunk_size) total)` joined by single spaces, with
`id = k` and the metadata of the source. -/
lemma fixedChunkWords_spec (cs ov : ℤ) (words : List String)
    (h1 : 1 ≤ cs) (h2 : 0 ≤ ov) (h3 : ov < cs) :
    ∃ chunks, fixedChunkWords cs ov words = .ok chunks ∧
      chunks.length = pyRangeLen 0 words.length (cs - ov) ∧
      ∀ k (hk : k < chunks.length),
        chunks.get ⟨k, hk⟩ =
          { id := k
            text := String.intercalate " " ((words.drop (k * (cs - ov).toNat)).take cs.toNat)
            start_word := (k : ℤ) * (cs - ov)
            end_word := min ((k : ℤ) * (cs - ov) + cs) words.length
            total_words := words.length } ∧
        (k : ℤ) * (cs - ov) < words.length := by
  have hstep : (0 : ℤ) < cs - ov := by omega
  refine ⟨_, by simp only [fixedChunkWords]; rw [if_neg (by omega)], ?_, ?_⟩
  · simp only [List.length_map, List.enum_length, pyRange_length]
  · intro k hk
    simp only [List.length_map, List.enum_length] at hk
    have hklen : k < pyRangeLen 0 (words.length : ℤ) (cs - ov) := by
      rwa [pyRange_length] at hk
    have hk' : k < (pyRange 0 (words.length : ℤ) (cs - ov)).length := by
      rwa [pyRange_length]
    have hi : (pyRange 0 (words.length : ℤ) (cs - ov))[k] = (k : ℤ) * (cs - ov) := by
      rw [pyRange_getElem]; ring
    have hlt : (k : ℤ) * (cs - ov) < words.length := pyRangeLen_mul_lt _ _ hstep k hklen
    have hi0 : (0 : ℤ) ≤ (k : ℤ) * (cs - ov) := by positivity
    have hcast : ((k * (cs - ov).toNat : ℕ) : ℤ) = (k : ℤ) * (cs - ov) := by
      push_cast
      rw [Int.toNat_of_nonneg (le_of_lt hstep)]
    refine ⟨?_, hlt⟩
    simp only [List.get_eq_getElem, List.getElem_map, List.getElem_enum, hi]
    have hslice := pySlice_nonneg words ((k : ℤ) * (cs - ov)) ((k : ℤ) * (cs - ov) + cs) hi0
      (by omega)
    have harg : ((k : ℤ) * (cs - ov) + cs - (k : ℤ) * (cs - ov)).toNat = cs.toNat := by omega
    have hidx : ((k : ℤ) * (cs - ov)).toNat = k * (cs - ov).toNat := by omega
    rw [hslice, harg, hidx]
    have hlen : ((((words.drop (k * (cs - ov).toNat)).take cs.toNat).length : ℕ) : ℤ) =
        min cs ((words.length : ℤ) - (k : ℤ) * (cs - ov)) := by
      simp only [List.length_take, List.length_drop]
      omega
    simp only [FixedChunk.mk.injEq, true_and, and_true]
    rw [hlen]
    omega

/-- `range(0, 0, step)` is empty for positive `step`. -/
lemma pyRangeLen_zero (step : ℤ) (hstep : 0 < step) : pyRangeLen 0 0 step = 0 := by
  unfold pyRangeLen
  rw [if_pos hstep]
  have h1 : (0 - 0 + step - 1) / step < 1 := by
    rw [Int.ediv_lt_iff_lt_mul hstep]; omega
  have h2 : 0 ≤ (0 - 0 + step - 1) / step ∨ (0 - 0 + step - 1) / step < 0 := by omega
  omega

/-- Coverage for the fixed chunker: with a valid configuration every word
index lands in at least one emitted chunk's `[start_word, end_word)` range. -/
lemma fixedChunkWords_cover (cs ov : ℤ) (words : List String)
    (h1 : 1 ≤ cs) (h2 : 0 ≤ ov) (h3 : ov < cs) :
    ∃ chunks, fixedChunkWords cs ov words = .ok chunks ∧
      ∀ x : ℕ, x < words.length →
        ∃ c ∈ chunks, c.start_word ≤ (x : ℤ) ∧ (x : ℤ) < c.end_word := by
  have hstep : (0 : ℤ) < cs - ov := by omega
  obtain ⟨chunks, hok, hlen, hget⟩ := fixedChunkWords_spec cs ov words h1 h2 h3
  refine ⟨chunks, hok, ?_⟩
  intro x hx
  obtain ⟨hq1, hq2, hq3⟩ := pyRangeLen_cover (words.length : ℤ) (cs - ov) hstep (x : ℤ)
    (by omega) (by omega)
  have hklen : ((x : ℤ) / (cs - ov)).toNat < chunks.length := by rw [hlen]; exact hq1
  obtain ⟨hc, _⟩ := hget _ hklen
  refine ⟨chunks.get ⟨_, hklen⟩, List.get_mem _ _ _, ?_⟩
  rw [hc]
  simp only
  constructor
  · exact hq2
  · have hxa : (x : ℤ) < (((x : ℤ) / (cs - ov)).toNat : ℤ) * (cs - ov) + cs := by omega
    omega

/-- With `overlap > chunk_size` the step is negative, so `range(0, n, step)`
is empty and `FixedChunker.chunk` silently returns no chunks. -/
lemma fixedChunk_neg_step (cs ov : ℤ) (text : String) (h : cs < ov) :
    fixedChunk cs ov text = .ok [] := by
  have hempty : pyRange 0 ((pySplit text).length : ℤ) (cs - ov) = [] := by
    rw [← List.length_eq_zero, pyRange_length]
    exact pyRangeLen_neg_step _ _ (by positivity) (by omega)
  simp only [fixedChunk, fixedChunkWords]
  rw [if_neg (by omega), hempty]
  rfl

/-- With `overlap = chunk_size` the step is zero and `range` raises
`ValueError` before any text is processed. -/
lemma fixedChunk_zero_step (cs : ℤ) (text : String) :
    fixedChunk cs cs text = .error .valueError := by
  simp only [fixedChunk, fixedChunkWords]
  rw [if_pos (by omega)]

/-- Claim C10: with `overlap > chunk_size` the fixed chunker's step is
negative, `range` is empty, and `chunk()` silently returns no chunks for any
text; with `overlap = chunk_size` the step is zero and `range` raises a
generic `ValueError` (there is no typed configuration error). -/
theorem C10_overlap_exceeds_chunk_size :
    (∀ (cs ov : ℤ) (text : String), cs < ov → fixedChunk cs ov text = .ok []) ∧
    (∀ (cs : ℤ) (text : String), fixedChunk cs cs text = .error .valueError) :=
  ⟨fun cs ov text h => fixedChunk_neg_step cs ov text h,
   fun cs text => fixedChunk_zero_step cs text⟩

/-- Witness for C10 at a concrete configuration and text. -/
theorem C10_overlap_exceeds_chunk_size_witness :
    fixedChunk 2 3 "a b c" = .ok [] ∧ fixedChunk 2 2 "a b c" = .error .valueError :=
  ⟨C10_overlap_exceeds_chunk_size.1 2 3 "a b c" (by norm_num),
   C10_overlap_exceeds_chunk_size.2 2 "a b c"⟩

/-- Claim C7 counterexample: a `FixedChunker` with `overlap = 150 > 100 =
chunk_size` does not fail with any configuration error on a non-trivial
text; it proceeds and returns the empty chunk list. -/
theorem C7_counterexample : fixedChunk 100 150 "a b c" = .ok [] := by rfl

/-- Claim C7, amended: `FixedChunker.chunk` has no `overlap >= chunk_size`
guard and no `InvalidConfiguration` exists.  With `overlap > chunk_size` it
proceeds and silently produces no chunks; only `overlap = chunk_size` fails,
with Python's generic `ValueError` raised by `range(0, n, 0)`. -/
theorem C7_no_overlap_guard (cs ov : ℤ) (text : String) (h : cs ≤ ov) :
    (ov = cs → fixedChunk cs ov text = .error .valueError) ∧
    (cs < ov → fixedChunk cs ov text = .ok []) := by
  constructor
  · rintro rfl
    exact fixedChunk_zero_step ov text
  · intro hlt
    exact fixedChunk_neg_step cs ov text hlt

/-- Witness for the amended C7. -/
theorem C7_no_overlap_guard_witness :
    fixedChunk 5 5 "x y" = .error .valueError ∧ fixedChunk 5 7 "x y" = .ok [] :=
  ⟨(C7_no_overlap_guard 5 5 "x y" (by norm_num)).1 rfl,
   (C7_no_overlap_guard 5 7 "x y" (by norm_num)).2 (by norm_num)⟩

/-- Claim C2: for every text and every configuration with `chunk_size ≥ 1`
and `0 ≤ overlap < chunk_size`, the fixed chunker splits the text on
whitespace and, at every step position `i = k·(chunk_size - overlap) <
total_words`, emits the chunk of words `[i, min (i + chunk_size) total)`
joined by single spaces, with `id = k`, `start_word = i`,
`end_word = i + number of words included` and `total_words`; in particular
1000 single-word items with `chunk_size = 100, overlap = 0` give exactly 10
chunks each spanning 100 words, and with `overlap = 20` chunks advance by 80
words and the last chunk's `end_word` is `total_words = 1000`. -/
theorem C2_fixed_chunker_exact :
    (∀ (cs ov : ℤ) (text : String), 1 ≤ cs → 0 ≤ ov → ov < cs →
      ∃ chunks, fixedChunk cs ov text = .ok chunks ∧
        chunks.length = pyRangeLen 0 ((pySplit text).length : ℤ) (cs - ov) ∧
        ∀ k (hk : k < chunks.length),
          chunks.get ⟨k, hk⟩ =
            { id := k
              text := String.intercalate " "
                (((pySplit text).drop (k * (cs - ov).toNat)).take cs.toNat)
              start_word := (k : ℤ) * (cs - ov)
              end_word := min ((k : ℤ) * (cs - ov) + cs) ((pySplit text).length : ℤ)
              total_words := ((pySplit text).length : ℤ) } ∧
          (k : ℤ) * (cs - ov) < ((pySplit text).length : ℤ)) ∧
    (∃ l, fixedChunkWords 100 0 (List.replicate 1000 "a") = .ok l ∧ l.length = 10 ∧
      ∀ k (hk : k < l.length),
        (l.get ⟨k, hk⟩).start_word = 100 * k ∧ (l.get ⟨k, hk⟩).end_word = 100 * k + 100) ∧
    (∃ l, fixedChunkWords 100 20 (List.replicate 1000 "a") = .ok l ∧ l.length = 13 ∧
      (∀ k (hk1 : k + 1 < l.length) (hk2 : k < l.length),
        (l.get ⟨k + 1, hk1⟩).start_word = (l.get ⟨k, hk2⟩).start_word + 80) ∧
      ∀ h : l ≠ [], (l.getLast h).end_word = 1000) := by
  refine ⟨?_, ?_, ?_⟩
  · intro cs ov text h1 h2 h3
    exact fixedChunkWords_spec cs ov (pySplit text) h1 h2 h3
  · obtain ⟨l, hok, hlen, hget⟩ := fixedChunkWords_spec 100 0 (List.replicate 1000 "a")
      (by norm_num) (by norm_num) (by norm_num)
    have hlen10 : l.length = 10 := by
      rw [hlen, List.length_replicate]
      decide
    refine ⟨l, hok, hlen10, ?_⟩
    intro k hk
    obtain ⟨hc, _⟩ := hget k hk
    have hk10 : k < 10 := hlen10 ▸ hk
    rw [hc]
    simp only [List.length_replicate]
    constructor
    · push_cast
      ring
    · have hkz : (k : ℤ) ≤ 9 := by exact_mod_cast Nat.lt_succ_iff.mp hk10
      rw [min_eq_left (by omega)]
      push_cast
      ring
  · obtain ⟨l, hok, hlen, hget⟩ := fixedChunkWords_spec 100 20 (List.replicate 1000 "a")
      (by norm_num) (by norm_num) (by norm_num)
    have hlen13 : l.length = 13 := by
      rw [hlen, List.length_replicate]
      decide
    refine ⟨l, hok, hlen13, ?_, ?_⟩
    · intro k hk1 hk2
      obtain ⟨hc1, _⟩ := hget (k + 1) hk1
      obtain ⟨hc2, _⟩ := hget k hk2
      rw [hc1, hc2]
      push_cast
      ring
    · intro hne
      have hgl : l.getLast hne = l.get ⟨l.length - 1, by omega⟩ := List.getLast_eq_get l hne
      obtain ⟨hc, _⟩ := hget (l.length - 1) (by omega)
      rw [hgl, hc]
      simp only [List.length_replicate]
      have h12 : l.length - 1 = 12 := by omega
      rw [h12]
      norm_num

/-- Witness for C2 at a concrete configuration and text. -/
theorem C2_fixed_chunker_exact_witness :
    ∃ chunks, fixedChunk 2 0 "a b c" = .ok chunks ∧
      chunks.length = pyRangeLen 0 ((pySplit "a b c").length : ℤ) (2 - 0) ∧
      ∀ k (hk : k < chunks.length),
        chunks.get ⟨k, hk⟩ =
          { id := k
            text := String.intercalate " "
              (((pySplit "a b c").drop (k * ((2 : ℤ) - 0).toNat)).take (2 : ℤ).toNat)
            start_word := (k : ℤ) * (2 - 0)
            end_word := min ((k : ℤ) * (2 - 0) + 2) ((pySplit "a b c").length : ℤ)
            total_words := ((pySplit "a b c").length : ℤ) } ∧
        (k : ℤ) * (2 - 0) < ((pySplit "a b c").length : ℤ) :=
  C2_fixed_chunker_exact.1 2 0 "a b c" (by norm_num) (by norm_num) (by norm_num)

/-- Claim C8: on whitespace-only (or empty) input, all three chunkers return
the empty chunk sequence, and the semantic chunker's result does not depend
on the similarity/embedding collaborator (which the source only consults
after the early return). -/
theorem C8_empty_input (text : String) (hws : ∀ c ∈ text.data, c.isWhitespace = true)
    (tok : String → List String) (htok : tok text = []) :
    (∀ (cs ov : ℤ), 1 ≤ cs → 0 ≤ ov → ov < cs → fixedChunk cs ov text = .ok []) ∧
    (∀ (cs ov : ℤ), sentenceChunkText tok cs ov text = []) ∧
    (∀ (cs : ℤ) (θ : ℚ) (sim : ℕ → ℚ), semanticChunkText tok cs θ sim text = []) ∧
    (∀ (cs : ℤ) (θ : ℚ) (sim sim2 : ℕ → ℚ),
      semanticChunkText tok cs θ sim text = semanticChunkText tok cs θ sim2 text) := by
  have hsplit : pySplit text = [] := pySplit_all_ws text hws
  have hlen0 : ((pySplit text).length : ℤ) = 0 := by rw [hsplit]; rfl
  refine ⟨?_, ?_, ?_, ?_⟩
  · intro cs ov h1 h2 h3
    have hempty : pyRange 0 ((pySplit text).length : ℤ) (cs - ov) = [] := by
      rw [hlen0, ← List.length_eq_zero, pyRange_length]
      exact pyRangeLen_zero _ (by omega)
    simp only [fixedChunk, fixedChunkWords]
    rw [if_neg (by omega), hempty]
    rfl
  · intro cs ov
    simp [sentenceChunkText, sentenceChunk, htok]
  · intro cs θ sim
    simp [semanticChunkText, semanticChunk, htok]
  · intro cs θ sim sim2
    simp [semanticChunkText, semanticChunk, htok]

/-- Witness for C8 on the three-space string. -/
theorem C8_empty_input_witness :
    fixedChunk 5 1 "   " = .ok [] ∧ sentenceChunkText (fun _ => []) 5 1 "   " = [] ∧
      semanticChunkText (fun _ => []) 5 0 (fun _ => 0) "   " = [] := by
  obtain ⟨h1, h2, h3, _⟩ := C8_empty_input "   " (by decide) (fun _ => []) rfl
  exact ⟨h1 5 1 (by norm_num) (by norm_num) (by norm_num), h2 5 1, h3 5 0 (fun _ => 0)⟩

/-- Unfolding of `packCount` on a cons cell with an empty current chunk: the
first sentence is always taken. -/
lemma packCount_cons_false (cs : ℤ) (wc : ℕ) (s : String) (rest : List String) :
    packCount cs wc false (s :: rest) = packCount cs (wc + wordCount s) true rest + 1 := by
  simp only [packCount, Bool.false_eq_true, and_false, if_false]

/-- Unfolding of `packCount` on a cons cell with a non-empty current chunk
that the next sentence would push over budget: the sentence is refused. -/
lemma packCount_cons_true_stop (cs : ℤ) (wc : ℕ) (s : String) (rest : List String)
    (h : (wc : ℤ) + wordCount s > cs) :
    packCount cs wc true (s :: rest) = 0 := by
  simp only [packCount]
  rw [if_pos ⟨h, trivial⟩]

/-- Unfolding of `packCount` on a cons cell with a non-empty current chunk
and room in the budget: the sentence is taken. -/
lemma packCount_cons_true_go (cs : ℤ) (wc : ℕ) (s : String) (rest : List String)
    (h : ¬((wc : ℤ) + wordCount s > cs)) :
    packCount cs wc true (s :: rest) = packCount cs (wc + wordCount s) true rest + 1 := by
  simp only [packCount]
  rw [if_neg (fun hc => h hc.1)]

lemma packCount_cs_nonpos (cs : ℤ) (hcs : cs ≤ 0) (s : String) (rest : List String)
    (hs : 1 ≤ wordCount s) :
    packCount cs 0 false (s :: rest) = 1 := by
  rw [packCount_cons_false]
  cases rest with
  | nil => simp only [packCount]
  | cons t ts =>
    rw [packCount_cons_true_stop]
    push_cast
    omega

/-- One unfolding step of the outer sentence-chunker loop when the cursor is
inside the sentence list (the force-add and break branches of the source are
dead because the packing loop always takes at least one sentence). -/
lemma sentLoop_step (cs : ℤ) (cap total : ℕ) (sents : List String) (fuel i : ℕ)
    (acc : List SentChunk) (hi : i < total)
    (hk : packCount cs 0 false (sents.drop i) ≠ 0) :
    sentLoop cs cap sents total (fuel + 1) i acc =
      sentLoop cs cap sents total fuel
        (if 0 < cap then max (i + 1) (i + packCount cs 0 false (sents.drop i) - cap)
         else i + packCount cs 0 false (sents.drop i))
        (acc ++ [{ id := acc.length
                   text := String.intercalate " "
                     ((sents.drop i).take (packCount cs 0 false (sents.drop i)))
                   start_sentence := i
                   end_sentence := i + packCount cs 0 false (sents.drop i) - 1
                   total_sentences := total }]) := by
  rw [sentLoop, if_pos hi]
  have h1 : ¬(packCount cs 0 false (sents.drop i) = 0 ∧
      i + packCount cs 0 false (sents.drop i) < total) := fun h => hk h.1
  simp only [h1, if_false, if_neg hk]

/-- The packing loop takes at least one sentence from a non-empty list when
the current chunk is empty. -/
lemma packCount_false_pos (cs : ℤ) (wc : ℕ) (s : String) (rest : List String) :
    packCount cs wc false (s :: rest) ≠ 0 := by
  rw [packCount_cons_false]
  omega

/-- A cursor strictly inside the sentence list exposes a cons cell. -/
lemma drop_cons_of_lt {α : Type} (l : List α) (i : ℕ) (hi : i < l.length) :
    ∃ s rest, l.drop i = s :: rest := by
  cases hdrop : l.drop i with
  | nil =>
    exfalso
    have := List.length_drop i l
    rw [hdrop] at this
    simp at this
    omega
  | cons s rest => exact ⟨s, rest, rfl⟩

/-- With a non-positive word budget every loop iteration consumes exactly one
sentence, so the sentence chunker emits one chunk per remaining sentence. -/
lemma sentLoop_len_cs_nonpos (cs : ℤ) (hcs : cs ≤ 0) (cap : ℕ) (sents : List String)
    (hall : ∀ s ∈ sents, 1 ≤ wordCount s) :
    ∀ fuel i acc, sents.length - i ≤ fuel →
      (sentLoop cs cap sents sents.length fuel i acc).length = acc.length + (sents.length - i) := by
  intro fuel
  induction fuel with
  | zero =>
    intro i acc h
    simp only [sentLoop]
    omega
  | succ n ih =>
    intro i acc h
    by_cases hi : i < sents.length
    · obtain ⟨s, rest, hd⟩ := drop_cons_of_lt sents i hi
      have hsub : ∀ t ∈ sents.drop i, 1 ≤ wordCount t :=
        fun t ht => hall t (List.drop_subset i sents ht)
      have hpack : packCount cs 0 false (sents.drop i) = 1 := by
        rw [hd]
        exact packCount_cs_nonpos cs hcs s rest (hsub s (by rw [hd]; simp))
      rw [sentLoop_step cs cap sents.length sents n i acc hi (by omega), hpack]
      have hiN : (if 0 < cap then max (i + 1) (i + 1 - cap) else i + 1) = i + 1 := by
        split <;> omega
      rw [hiN, ih (i + 1) _ (by omega)]
      simp only [List.length_append, List.length_cons, List.length_nil]
      omega
    · simp only [sentLoop, if_neg hi]
      omega

/-- Claim C1 counterexample: a `SentenceChunker` with `chunk_size = 0`
raises nothing — it processes the text and emits a chunk (the repository
defines no `InvalidConfiguration` and validates nothing). -/
theorem C1_counterexample :
    sentenceChunk 0 0 ["Hello."] = [⟨0, "Hello.", 0, 0, 1⟩] := by rfl

/-- Claim C1, amended: no chunker validates `chunk_size` and no
`InvalidConfiguration` exception exists anywhere in the repository.  With
`chunk_size ≤ 0` the sentence chunker still processes its input, emitting
one chunk per sentence; the semantic chunker likewise emits a chunk; the
fixed chunker with `chunk_size = overlap` (e.g. `chunk_size = 0` with the
default `overlap = 0`) fails with Python's generic `ValueError` from
`range()`, and with `chunk_size < 0`, `overlap = 0` it silently returns no
chunks. -/
theorem C1_no_config_validation :
    (∀ (cs ov : ℤ) (sents : List String), cs ≤ 0 → (∀ s ∈ sents, 1 ≤ wordCount s) →
      (sentenceChunk cs ov sents).length = sents.length) ∧
    (∀ (cs : ℤ) (text : String), fixedChunk cs cs text = .error .valueError) ∧
    (∀ (cs : ℤ) (text : String), cs < 0 → fixedChunk cs 0 text = .ok []) ∧
    ((semanticChunk 0 0 (fun _ => 0) ["Hello."]).map
        (fun c => (c.id, c.text, c.start_sentence, c.end_sentence, c.total_sentences)) =
      [(0, "Hello.", 0, 0, 1)]) := by
  refine ⟨?_, fun cs text => fixedChunk_zero_step cs text,
    fun cs text h => fixedChunk_neg_step cs 0 text (by omega), by rfl⟩
  intro cs ov sents hcs hall
  by_cases h0 : sents.length = 0
  · simp [sentenceChunk, h0, List.length_eq_zero.mp h0]
  · simp only [sentenceChunk, if_neg h0]
    rw [sentLoop_len_cs_nonpos cs hcs _ sents hall sents.length 0 [] (by omega)]
    simp

/-- Witness for the amended C1. -/
theorem C1_no_config_validation_witness :
    (sentenceChunk 0 0 ["Hi there.", "Bye."]).length = 2 ∧
      fixedChunk 0 0 "a" = .error .valueError ∧ fixedChunk (-1) 0 "a" = .ok [] := by
  obtain ⟨h1, h2, h3, _⟩ := C1_no_config_validation
  exact ⟨h1 0 0 ["Hi there.", "Bye."] (by norm_num) (by decide), h2 0 "a",
    h3 (-1) "a" (by norm_num)⟩

/-! ### Packing-loop characterization for the sentence chunker -/

lemma packCount_le_length (cs : ℤ) :
    ∀ (l : List String) (wc : ℕ) (b : Bool), packCount cs wc b l ≤ l.length := by
  intro l
  induction l with
  | nil => intro wc b; simp [packCount]
  | cons s rest ih =>
    intro wc b
    simp only [packCount, List.length_cons]
    split
    · omega
    · have := ih (wc + wordCount s) true
      omega

lemma wTake_mono (l : List String) (n m : ℕ) (h : n ≤ m) :
    ((l.take n).map wordCount).sum ≤ ((l.take m).map wordCount).sum := by
  have hsplit : l.take m = l.take n ++ (l.drop n).take (m - n) := by
    rw [← List.take_add]
    congr 1
    omega
  rw [hsplit, List.map_append, List.sum_append]
  omega

/-- Within-budget part: after the first sentence, every sentence the packing
loop accepts keeps the running total within `chunk_size`. -/
lemma packCount_true_le_budget (cs : ℤ) (l : List String) :
    ∀ (wc : ℕ) (n : ℕ), 1 ≤ n → n ≤ packCount cs wc true l →
      (wc : ℤ) + ((l.take n).map wordCount).sum ≤ cs := by
  induction l with
  | nil =>
    intro wc n h1 h2
    simp [packCount] at h2
    omega
  | cons s rest ih =>
    intro wc n h1 h2
    by_cases hb : (wc : ℤ) + wordCount s > cs
    · rw [packCount_cons_true_stop _ _ _ _ hb] at h2
      omega
    · rw [packCount_cons_true_go _ _ _ _ hb] at h2
      cases n with
      | zero => omega
      | succ m =>
        rw [List.take_succ_cons]
        simp only [List.map_cons, List.sum_cons]
        by_cases hm : 1 ≤ m
        · have := ih (wc + wordCount s) m hm (by omega)
          push_cast at this ⊢
          omega
        · have hm0 : m = 0 := by omega
          subst hm0
          simp only [List.take_zero, List.map_nil, List.sum_nil, add_zero]
          omega

/-- Maximality: when the packing loop stops before the end of the list, the
next sentence would have pushed the running total over `chunk_size`. -/
lemma packCount_true_maximal (cs : ℤ) (l : List String) :
    ∀ wc : ℕ, packCount cs wc true l < l.length →
      (wc : ℤ) + ((l.take (packCount cs wc true l + 1)).map wordCount).sum > cs := by
  induction l with
  | nil => intro wc h; simp at h
  | cons s rest ih =>
    intro wc h
    by_cases hb : (wc : ℤ) + wordCount s > cs
    · rw [packCount_cons_true_stop _ _ _ _ hb]
      simp only [zero_add, List.take_succ_cons, List.take_zero, List.map_cons, List.map_nil,
        List.sum_cons, List.sum_nil, add_zero]
      omega
    · rw [packCount_cons_true_go _ _ _ _ hb] at h ⊢
      have hlt : packCount cs (wc + wordCount s) true rest < rest.length := by
        simp only [List.length_cons] at h
        omega
      have := ih (wc + wordCount s) hlt
      rw [List.take_succ_cons]
      simp only [List.map_cons, List.sum_cons]
      push_cast at this ⊢
      omega

/-- Completeness: any prefix that fits in the budget is fully taken by the
packing loop. -/
lemma packCount_true_ge (cs : ℤ) (l : List String) :
    ∀ (wc : ℕ) (n : ℕ), n ≤ l.length →
      (wc : ℤ) + ((l.take n).map wordCount).sum ≤ cs → n ≤ packCount cs wc true l := by
  induction l with
  | nil =>
    intro wc n h1 _
    simp at h1
    omega
  | cons s rest ih =>
    intro wc n h1 h2
    cases n with
    | zero => omega
    | succ m =>
      rw [List.take_succ_cons] at h2
      simp only [List.map_cons, List.sum_cons] at h2
      have hs : ¬((wc : ℤ) + wordCount s > cs) := by omega
      rw [packCount_cons_true_go _ _ _ _ hs]
      have := ih (wc + wordCount s) m (by simpa using h1) (by omega)
      omega

/-- Additivity of `wSum` over adjacent index ranges. -/
lemma wSum_add (sents : List String) (a m n : ℕ) :
    wSum sents a (m + n) = wSum sents a m + wSum sents (a + m) n := by
  unfold wSum
  rw [← List.drop_drop]
  by_cases hm : m ≤ (sents.drop a).length
  · rw [List.take_add, List.map_append, List.sum_append]
  · have h1 : (sents.drop a).take (m + n) = (sents.drop a).take m := by
      rw [List.take_of_length_le (by omega), List.take_of_length_le (by omega)]
    have h2 : (sents.drop a).drop m = [] := List.drop_eq_nil_of_le (by omega)
    rw [h1, h2]
    simp

lemma packCount_start_pos (cs : ℤ) (sents : List String) (i : ℕ) (hi : i < sents.length) :
    1 ≤ packCount cs 0 false (sents.drop i) := by
  obtain ⟨s, rest, hd⟩ := drop_cons_of_lt sents i hi
  rw [hd, packCount_cons_false]
  omega

lemma packCount_start_le (cs : ℤ) (sents : List String) (i : ℕ) :
    packCount cs 0 false (sents.drop i) ≤ sents.length - i := by
  have := packCount_le_length cs (sents.drop i) 0 false
  rwa [List.length_drop] at this

/-- Budget rule at chunk level: every prefix of length `≥ 2` taken by the
packing loop fits within `chunk_size`. -/
lemma packCount_start_le_budget (cs : ℤ) (sents : List String) (i n : ℕ)
    (hi : i < sents.length) (h2 : 2 ≤ n) (hn : n ≤ packCount cs 0 false (sents.drop i)) :
    (wSum sents i n : ℤ) ≤ cs := by
  obtain ⟨s, rest, hd⟩ := drop_cons_of_lt sents i hi
  rw [hd, packCount_cons_false] at hn
  obtain ⟨m, rfl⟩ : ∃ m, n = m + 1 := ⟨n - 1, by omega⟩
  have hb := packCount_true_le_budget cs rest (0 + wordCount s) m (by omega) (by omega)
  unfold wSum
  rw [hd, List.take_succ_cons]
  simp only [List.map_cons, List.sum_cons]
  omega

/-- Maximality at chunk level: if the packing loop stopped before the end of
the sentence list, adding one more sentence would exceed `chunk_size`. -/
lemma packCount_start_maximal (cs : ℤ) (sents : List String) (i : ℕ)
    (hi : i < sents.length)
    (hlt : i + packCount cs 0 false (sents.drop i) < sents.length) :
    (wSum sents i (packCount cs 0 false (sents.drop i) + 1) : ℤ) > cs := by
  obtain ⟨s, rest, hd⟩ := drop_cons_of_lt sents i hi
  have hlen : rest.length = sents.length - i - 1 := by
    have := List.length_drop i sents
    rw [hd] at this
    simp at this
    omega
  rw [hd, packCount_cons_false] at hlt ⊢
  have hrlt : packCount cs (0 + wordCount s) true rest < rest.length := by omega
  have hb := packCount_true_maximal cs rest (0 + wordCount s) hrlt
  unfold wSum
  rw [hd, List.take_succ_cons]
  simp only [List.map_cons, List.sum_cons]
  omega

/-- Completeness at chunk level: a sentence range starting at `i` that fits
within `chunk_size` is fully taken by the packing loop. -/
lemma packCount_start_ge (cs : ℤ) (sents : List String) (i n : ℕ)
    (hi : i < sents.length) (h1 : 1 ≤ n) (hn : i + n ≤ sents.length)
    (hb : (wSum sents i n : ℤ) ≤ cs) :
    n ≤ packCount cs 0 false (sents.drop i) := by
  obtain ⟨s, rest, hd⟩ := drop_cons_of_lt sents i hi
  have hlen : rest.length = sents.length - i - 1 := by
    have := List.length_drop i sents
    rw [hd] at this
    simp at this
    omega
  rw [hd, packCount_cons_false]
  obtain ⟨m, rfl⟩ : ∃ m, n = m + 1 := ⟨n - 1, by omega⟩
  unfold wSum at hb
  rw [hd, List.take_succ_cons] at hb
  simp only [List.map_cons, List.sum_cons] at hb
  have := packCount_true_ge cs rest (0 + wordCount s) m (by omega) (by omega)
  omega

/-- One loop iteration of the sentence chunker preserves the invariant. -/
lemma sentInv_step (cs : ℤ) (cap : ℕ) (sents : List String) (i : ℕ) (acc : List SentChunk)
    (hi : i < sents.length) (hinv : SentInv cs cap sents.length sents i acc) :
    SentInv cs cap sents.length sents
      (if 0 < cap then max (i + 1) (i + packCount cs 0 false (sents.drop i) - cap)
       else i + packCount cs 0 false (sents.drop i))
      (acc ++ [{ id := acc.length
                 text := String.intercalate " "
                   ((sents.drop i).take (packCount cs 0 false (sents.drop i)))
                 start_sentence := i
                 end_sentence := i + packCount cs 0 false (sents.drop i) - 1
                 total_sentences := sents.length }]) := by
  obtain ⟨hids, hgood, hchain, hhead, hitot, hacc0, hlast⟩ := hinv
  have hk1 : 1 ≤ packCount cs 0 false (sents.drop i) := packCount_start_pos cs sents i hi
  have hkle : i + packCount cs 0 false (sents.drop i) ≤ sents.length := by
    have := packCount_start_le cs sents i
    omega
  set k := packCount cs 0 false (sents.drop i) with hkdef
  set c : SentChunk :=
    { id := acc.length
      text := String.intercalate " " ((sents.drop i).take k)
      start_sentence := i
      end_sentence := i + k - 1
      total_sentences := sents.length } with hcdef
  set iN := (if 0 < cap then max (i + 1) (i + k - cap) else i + k) with hiNdef
  have hcstart : c.start_sentence = i := rfl
  have hcend : c.end_sentence = i + k - 1 := rfl
  have hiN1 : i + 1 ≤ iN := by rw [hiNdef]; split <;> omega
  have hiNle : iN ≤ i + k := by rw [hiNdef]; split <;> omega
  have hgoodc : GoodSent cs sents.length sents c := by
    refine ⟨by rw [hcstart, hcend]; omega, by rw [hcend]; omega, rfl, ?_, ?_, ?_⟩
    · show c.text = _
      rw [hcstart, hcend]
      have : i + k - 1 + 1 - i = k := by omega
      rw [this]
    · intro n h2 hn
      simp only [hcstart, hcend] at hn ⊢
      exact packCount_start_le_budget cs sents i n hi h2 (by omega)
    · intro hlt
      simp only [hcstart, hcend] at hlt ⊢
      have harith : i + k - 1 + 2 - i = k + 1 := by omega
      rw [harith]
      exact packCount_start_maximal cs sents i hi (by omega)
  refine ⟨?_, ?_, ?_, ?_, by omega, by simp, ?_⟩
  · rw [List.map_append, hids, List.length_append]
    simp [List.range_succ]
  · intro d hd
    rcases List.mem_append.mp hd with h | h
    · exact hgood d h
    · have : d = c := by simpa using h
      rw [this]
      exact hgoodc
  · rw [List.chain'_append]
    refine ⟨hchain, List.chain'_singleton c, ?_⟩
    intro x hx y hy
    obtain rfl : c = y := by simpa using hy
    have hne : acc ≠ [] := by
      intro h0
      rw [h0] at hx
      simp at hx
    have hx' : acc.getLast hne = x := by
      have := List.getLast?_eq_getLast acc hne
      rw [this] at hx
      simpa using hx
    obtain ⟨hcursor, hfeas⟩ := hlast hne
    rw [hx'] at hcursor hfeas
    have hxgood : GoodSent cs sents.length sents x := by
      rw [← hx']
      exact hgood _ (List.getLast_mem hne)
    obtain ⟨hxse, hxet, _, _, _, _⟩ := hxgood
    refine ⟨by rw [hcstart]; exact hcursor, by rw [hcstart]; omega, by rw [hcstart]; omega, ?_⟩
    -- ends never decrease
    rw [hcend]
    rcases hfeas with hsum | hieq
    · by_cases hn0 : x.end_sentence + 1 ≤ i
      · omega
      · have hn1 : 1 ≤ x.end_sentence + 1 - i := by omega
        have hnle : i + (x.end_sentence + 1 - i) ≤ sents.length := by omega
        have := packCount_start_ge cs sents i (x.end_sentence + 1 - i) hi hn1 hnle hsum
        omega
    · omega
  · intro h
    cases acc with
    | nil =>
      have hi0 : i = 0 := hacc0 rfl
      simp only [List.nil_append, List.head_cons]
      exact hi0
    | cons a as =>
      have : ((a :: as) ++ [c]).head (by simp) = a := rfl
      rw [this]
      exact hhead (by simp)
  · intro h
    have hglast : ((acc ++ [c]).getLast h) = c := by
      rw [List.getLast_append]
      simp
    rw [hglast, hcstart, hcend]
    constructor
    · have harith : i + k - 1 + 1 - cap = i + k - cap := by omega
      rw [harith, hiNdef]
      split
      · rfl
      · omega
    · have hend1 : i + k - 1 + 1 = i + k := by omega
      rw [hend1]
      by_cases hEq : iN = i + k
      · right
        exact hEq
      · left
        have hlt : iN < i + k := by omega
        have hk2 : 2 ≤ k := by omega
        have hfull : (wSum sents i k : ℤ) ≤ cs :=
          packCount_start_le_budget cs sents i k hi hk2 (by omega)
        have hadd := wSum_add sents i (iN - i) (i + k - iN)
        have hiNeq : i + (iN - i) = iN := by omega
        rw [hiNeq] at hadd
        have hks : iN - i + (i + k - iN) = k := by omega
        rw [hks] at hadd
        omega

/-- The invariant propagates through the fuelled loop; the loop exits with
the cursor at `total_sentences`. -/
lemma sentLoop_inv (cs : ℤ) (cap : ℕ) (sents : List String) :
    ∀ fuel i acc, sents.length - i ≤ fuel →
      SentInv cs cap sents.length sents i acc →
      SentInv cs cap sents.length sents sents.length
        (sentLoop cs cap sents sents.length fuel i acc) := by
  intro fuel
  induction fuel with
  | zero =>
    intro i acc h hinv
    have hie : i = sents.length := by
      obtain ⟨_, _, _, _, hitot, _, _⟩ := hinv
      omega
    simp only [sentLoop]
    exact hie ▸ hinv
  | succ n ih =>
    intro i acc h hinv
    by_cases hi : i < sents.length
    · have hkpos : packCount cs 0 false (sents.drop i) ≠ 0 := by
        have := packCount_start_pos cs sents i hi
        omega
      rw [sentLoop_step cs cap sents.length sents n i acc hi hkpos]
      apply ih
      · have h1 : i + 1 ≤ (if 0 < cap
            then max (i + 1) (i + packCount cs 0 false (sents.drop i) - cap)
            else i + packCount cs 0 false (sents.drop i)) := by
          have := packCount_start_pos cs sents i hi
          split <;> omega
        omega
      · exact sentInv_step cs cap sents i acc hi hinv
    · have hie : i = sents.length := by
        obtain ⟨_, _, _, _, hitot, _, _⟩ := hinv
        omega
      rw [sentLoop, if_neg hi]
      exact hie ▸ hinv

/-- The full invariant holds of the sentence chunker's output, with the
cursor at `total_sentences`. -/
lemma sentenceChunk_inv (cs ov : ℤ) (sents : List String) :
    SentInv cs (overlapCap ov sents.length) sents.length sents sents.length
      (sentenceChunk cs ov sents) := by
  by_cases h0 : sents.length = 0
  · simp only [sentenceChunk, if_pos h0]
    exact ⟨rfl, by simp, List.chain'_nil, fun h => absurd rfl h, le_refl _,
      fun _ => h0, fun h => absurd rfl h⟩
  · simp only [sentenceChunk, if_neg h0]
    apply sentLoop_inv cs _ sents sents.length 0 [] (by omega)
    exact ⟨rfl, by simp, List.chain'_nil, fun h => absurd rfl h, by omega,
      fun _ => rfl, fun h => absurd rfl h⟩

/-- Chunk-count bound: each iteration emits one chunk and advances the
cursor by at least one sentence. -/
lemma sentLoop_length_le (cs : ℤ) (cap : ℕ) (sents : List String) :
    ∀ fuel i acc, (sentLoop cs cap sents sents.length fuel i acc).length ≤
      acc.length + (sents.length - i) := by
  intro fuel
  induction fuel with
  | zero =>
    intro i acc
    simp only [sentLoop]
    omega
  | succ n ih =>
    intro i acc
    by_cases hi : i < sents.length
    · have hk1 := packCount_start_pos cs sents i hi
      rw [sentLoop_step cs cap sents.length sents n i acc hi (by omega)]
      refine le_trans (ih _ _) ?_
      rw [List.length_append]
      have h1 : i + 1 ≤ (if 0 < cap
          then max (i + 1) (i + packCount cs 0 false (sents.drop i) - cap)
          else i + packCount cs 0 false (sents.drop i)) := by
        split <;> omega
      simp only [List.length_cons, List.length_nil]
      omega
    · rw [sentLoop, if_neg hi]
      omega

/-- Coverage from the step chain: chunks whose starts never jump past the
previous end cover every index up to the last end. -/
lemma sentChunks_cover : ∀ (l : List SentChunk),
    List.Chain' (fun a b => b.start_sentence ≤ a.end_sentence + 1) l →
    (∀ h : l ≠ [], (l.head h).start_sentence = 0) →
    ∀ (hne : l ≠ []) (x : ℕ), x ≤ (l.getLast hne).end_sentence →
      ∃ c ∈ l, c.start_sentence ≤ x ∧ x ≤ c.end_sentence := by
  intro l
  induction l using List.reverseRecOn with
  | nil => intro _ _ hne; exact absurd rfl hne
  | append_singleton l' c ih =>
    intro hchain hhead hne x hx
    have hgl : ((l' ++ [c]).getLast hne) = c := by
      rw [List.getLast_append]
      simp
    rw [hgl] at hx
    by_cases hcx : c.start_sentence ≤ x
    · exact ⟨c, by simp, hcx, hx⟩
    · have hl'ne : l' ≠ [] := by
        intro h0
        subst h0
        have := hhead hne
        simp only [List.nil_append, List.head_cons] at this
        omega
      rw [List.chain'_append] at hchain
      obtain ⟨hchain', _, hlink⟩ := hchain
      have hrel : c.start_sentence ≤ (l'.getLast hl'ne).end_sentence + 1 := by
        apply hlink
        · rw [List.getLast?_eq_getLast l' hl'ne]
          simp
        · simp
      have hhead' : ∀ h : l' ≠ [], (l'.head h).start_sentence = 0 := by
        intro h
        have : (l' ++ [c]).head hne = l'.head h := by
          cases l' with
          | nil => exact absurd rfl h
          | cons a as => rfl
        rw [← this]
        exact hhead hne
      obtain ⟨d, hd, hdx⟩ := ih hchain' hhead' hl'ne x (by omega)
      exact ⟨d, by simp [hd], hdx⟩

/-- Claim C3: each chunk of the sentence chunker holds a non-empty contiguous
run of whole sentences (never split mid-sentence, never empty).  A sentence is
refused exactly when the chunk is non-empty and the running word count plus
its word count exceeds `chunk_size`: inside a chunk every prefix of two or
more sentences fits the budget, a chunk that closes before the end of the
input closes because the next sentence would overflow, and a sentence whose
own word count exceeds `chunk_size` sits alone in its chunk.  No sentence is
dropped: every index is covered by some chunk. -/
theorem C3_sentence_packing (cs ov : ℤ) (sents : List String) :
    (∀ c ∈ sentenceChunk cs ov sents,
      c.start_sentence ≤ c.end_sentence ∧
      c.end_sentence < sents.length ∧
      c.total_sentences = sents.length ∧
      c.text = String.intercalate " "
        ((sents.drop c.start_sentence).take (c.end_sentence + 1 - c.start_sentence)) ∧
      (∀ n, 2 ≤ n → n ≤ c.end_sentence + 1 - c.start_sentence →
        (wSum sents c.start_sentence n : ℤ) ≤ cs) ∧
      (c.end_sentence + 1 < sents.length →
        (wSum sents c.start_sentence (c.end_sentence + 2 - c.start_sentence) : ℤ) > cs) ∧
      ((wSum sents c.start_sentence 1 : ℤ) > cs → c.end_sentence = c.start_sentence)) ∧
    (∀ x : ℕ, x < sents.length →
      ∃ c ∈ sentenceChunk cs ov sents, c.start_sentence ≤ x ∧ x ≤ c.end_sentence) := by
  obtain ⟨hids, hgood, hchain, hhead, hitot, hacc0, hlast⟩ := sentenceChunk_inv cs ov sents
  constructor
  · intro c hc
    obtain ⟨h1, h2, h3, h4, h5, h6⟩ := hgood c hc
    refine ⟨h1, h2, h3, h4, h5, h6, ?_⟩
    intro hbig
    by_contra hne
    have h2le : 2 ≤ c.end_sentence + 1 - c.start_sentence := by omega
    have hb2 := h5 2 (le_refl 2) h2le
    have hadd : wSum sents c.start_sentence 2 =
        wSum sents c.start_sentence 1 + wSum sents (c.start_sentence + 1) 1 := by
      simpa using wSum_add sents c.start_sentence 1 1
    omega
  · intro x hx
    have hne : sentenceChunk cs ov sents ≠ [] := by
      intro h0
      have := hacc0 h0
      omega
    obtain ⟨hcursor, _⟩ := hlast hne
    have hlgood := hgood _ (List.getLast_mem hne)
    obtain ⟨hse, het, _⟩ := hlgood
    have hlend : ((sentenceChunk cs ov sents).getLast hne).end_sentence = sents.length - 1 := by
      omega
    apply sentChunks_cover _ (hchain.imp (fun a b h => h.2.1)) hhead hne x
    omega

/-- Witness for C3: a six-word first sentence with `chunk_size = 3` is
emitted alone in its own chunk, and every sentence index is covered. -/
theorem C3_sentence_packing_witness :
    (wSum ["a b c d e f.", "g."] 0 1 : ℤ) > 3 ∧
    (sentenceChunk 3 0 ["a b c d e f.", "g."]).head? =
      some ⟨0, "a b c d e f.", 0, 0, 2⟩ ∧
    (⟨0, "a b c d e f.", 0, 0, 2⟩ : SentChunk).end_sentence =
      (⟨0, "a b c d e f.", 0, 0, 2⟩ : SentChunk).start_sentence ∧
    ∃ c ∈ sentenceChunk 3 0 ["a b c d e f.", "g."],
      c.start_sentence ≤ 1 ∧ 1 ≤ c.end_sentence := by
  refine ⟨by decide, by decide, ?_, ?_⟩
  · exact ((C3_sentence_packing 3 0 ["a b c d e f.", "g."]).1
      ⟨0, "a b c d e f.", 0, 0, 2⟩ (by decide)).2.2.2.2.2.2 (by decide)
  · exact (C3_sentence_packing 3 0 ["a b c d e f.", "g."]).2 1 (by decide)

/-- Claim C5: the sentence chunker clamps the effective overlap below the
sentence count, resumes each chunk at `max (start_idx + 1) (cursor -
overlap_cap)` — hence every chunk starts strictly after its predecessor —
and therefore terminates with at most `total_sentences` chunks. -/
theorem C5_sentence_cursor_advance (cs ov : ℤ) (sents : List String) :
    overlapCap ov sents.length ≤ sents.length - 1 ∧
    (sentenceChunk cs ov sents).length ≤ sents.length ∧
    ∀ k (hk1 : k + 1 < (sentenceChunk cs ov sents).length)
        (hk2 : k < (sentenceChunk cs ov sents).length),
      ((sentenceChunk cs ov sents).get ⟨k + 1, hk1⟩).start_sentence =
        max (((sentenceChunk cs ov sents).get ⟨k, hk2⟩).start_sentence + 1)
          (((sentenceChunk cs ov sents).get ⟨k, hk2⟩).end_sentence + 1 -
            overlapCap ov sents.length) ∧
      ((sentenceChunk cs ov sents).get ⟨k, hk2⟩).start_sentence <
        ((sentenceChunk cs ov sents).get ⟨k + 1, hk1⟩).start_sentence := by
  refine ⟨by unfold overlapCap; omega, ?_, ?_⟩
  · by_cases h0 : sents.length = 0
    · simp [sentenceChunk, h0]
    · simp only [sentenceChunk, if_neg h0]
      have := sentLoop_length_le cs (overlapCap ov sents.length) sents sents.length 0 []
      simpa using this
  · intro k hk1 hk2
    obtain ⟨_, _, hchain, _, _, _, _⟩ := sentenceChunk_inv cs ov sents
    rw [List.chain'_iff_get] at hchain
    have hstep := hchain k (by omega)
    obtain ⟨hs1, _, hs3, _⟩ := hstep
    exact ⟨hs1, hs3⟩

/-- Witness for C5 on a concrete four-sentence input with overlap 2. -/
theorem C5_sentence_cursor_advance_witness :
    (sentenceChunk 5 2 ["a b c.", "d e.", "f g h i.", "j."]).length ≤ 4 ∧
    ((sentenceChunk 5 2 ["a b c.", "d e.", "f g h i.", "j."]).get ⟨1, by decide⟩).start_sentence =
      max (((sentenceChunk 5 2 ["a b c.", "d e.", "f g h i.", "j."]).get
          ⟨0, by decide⟩).start_sentence + 1)
        (((sentenceChunk 5 2 ["a b c.", "d e.", "f g h i.", "j."]).get
          ⟨0, by decide⟩).end_sentence + 1 - overlapCap 2 4) := by
  have h := C5_sentence_cursor_advance 5 2 ["a b c.", "d e.", "f g h i.", "j."]
  exact ⟨h.2.1, (h.2.2 0 (by decide) (by decide)).1⟩

/-! ### Per-candidate characterization of the semantic chunker's loop body -/

/-- A sentence arriving at an empty current chunk is added unconditionally
(no budget or similarity check fires). -/
lemma semStep_first (cs : ℤ) (θ : ℚ) (sim : ℕ → ℚ) (total : ℕ) (st : SemState)
    (i : ℕ) (s : String) (hcur : st.cur = []) :
    semStep cs θ sim total st i s =
      { chunks := st.chunks
        cur := [s]
        simsIn := st.simsIn
        startIdx := st.startIdx
        wc := st.wc + wordCount s } := by
  simp only [semStep]
  rw [if_neg (by simp [hcur]), if_neg (by simp [hcur])]
  simp [hcur]

/-- Budget cut: a sentence that would push a non-empty chunk over
`chunk_size` closes the chunk first (the similarity check is then skipped
because the refreshed chunk is empty), and starts the new chunk. -/
lemma semStep_budget_cut (cs : ℤ) (θ : ℚ) (sim : ℕ → ℚ) (total : ℕ) (st : SemState)
    (i : ℕ) (s : String) (hcur : st.cur ≠ [])
    (hb : (st.wc : ℤ) + wordCount s > cs) :
    semStep cs θ sim total st i s =
      { chunks := finalizeChunk st.chunks st.cur st.startIdx (i - 1) st.simsIn total
        cur := [s]
        simsIn := []
        startIdx := i
        wc := wordCount s } := by
  simp only [semStep]
  rw [if_pos (show st.cur ≠ [] ∧ (st.wc : ℤ) + (wordCount s : ℤ) > cs from ⟨hcur, hb⟩)]
  simp

/-- Similarity cut: within budget but with `sim` strictly below the
threshold, the chunk closes (semantic break) and the sentence starts the
next chunk. -/
lemma semStep_sim_cut (cs : ℤ) (θ : ℚ) (sim : ℕ → ℚ) (total : ℕ) (st : SemState)
    (i : ℕ) (s : String) (hcur : st.cur ≠ [])
    (hb : ¬((st.wc : ℤ) + wordCount s > cs)) (hi : 0 < i) (hsim : sim i < θ) :
    semStep cs θ sim total st i s =
      { chunks := finalizeChunk st.chunks st.cur st.startIdx (i - 1) st.simsIn total
        cur := [s]
        simsIn := []
        startIdx := i
        wc := wordCount s } := by
  simp only [semStep]
  rw [if_neg (show ¬(st.cur ≠ [] ∧ (st.wc : ℤ) + (wordCount s : ℤ) > cs) from
    fun h => hb h.2)]
  rw [if_pos (show st.cur ≠ [] ∧ 0 < i from ⟨hcur, hi⟩), if_pos hsim]
  simp

/-- Same chunk: within budget and at or above the threshold, the similarity
is recorded as a same-chunk sample and the sentence joins the chunk. -/
lemma semStep_keep (cs : ℤ) (θ : ℚ) (sim : ℕ → ℚ) (total : ℕ) (st : SemState)
    (i : ℕ) (s : String) (hcur : st.cur ≠ [])
    (hb : ¬((st.wc : ℤ) + wordCount s > cs)) (hi : 0 < i) (hsim : ¬(sim i < θ)) :
    semStep cs θ sim total st i s =
      { chunks := st.chunks
        cur := st.cur ++ [s]
        simsIn := st.simsIn ++ [sim i]
        startIdx := st.startIdx
        wc := st.wc + wordCount s } := by
  simp only [semStep]
  rw [if_neg (show ¬(st.cur ≠ [] ∧ (st.wc : ℤ) + (wordCount s : ℤ) > cs) from
    fun h => hb h.2)]
  rw [if_pos (show st.cur ≠ [] ∧ 0 < i from ⟨hcur, hi⟩), if_neg hsim]

lemma getLast_append_singleton {α : Type} (l : List α) (x : α) (h : l ++ [x] ≠ []) :
    (l ++ [x]).getLast h = x := by
  rw [List.getLast_append]
  simp

/-- `_finalize_chunk` preserves the chunk-list facts: ids stay gapless, the
new record is well-formed, and the partition extends to `endIdx + 1`. -/
lemma finalizeChunk_inv (sim : ℕ → ℚ) (total : ℕ) (sents : List String)
    (chunks : List SemChunk) (cur : List String) (startIdx endIdx : ℕ) (sims : List ℚ)
    (hids : chunks.map SemChunk.id = List.range chunks.length)
    (hgood : ∀ c ∈ chunks, GoodSem sim total sents c)
    (hchain : semChain chunks startIdx)
    (hse : startIdx ≤ endIdx) (het : endIdx < total)
    (hcur : cur = (sents.drop startIdx).take (endIdx + 1 - startIdx))
    (hsims : sims = (List.range' (startIdx + 1) (endIdx - startIdx)).map sim) :
    (finalizeChunk chunks cur startIdx endIdx sims total).map SemChunk.id =
      List.range (finalizeChunk chunks cur startIdx endIdx sims total).length ∧
    (∀ c ∈ finalizeChunk chunks cur startIdx endIdx sims total, GoodSem sim total sents c) ∧
    semChain (finalizeChunk chunks cur startIdx endIdx sims total) (endIdx + 1) := by
  obtain ⟨hchain', hheadlast, hempty⟩ := hchain
  unfold finalizeChunk
  refine ⟨?_, ?_, ?_, ?_, ?_⟩
  · rw [List.map_append, hids, List.length_append]
    simp [List.range_succ]
  · intro c hc
    rcases List.mem_append.mp hc with h | h
    · exact hgood c h
    · have hceq := List.mem_singleton.mp h
      rw [hceq]
      exact ⟨hse, het, rfl, by rw [hcur], by rw [hsims]⟩
  · rw [List.chain'_append]
    refine ⟨hchain', List.chain'_singleton _, ?_⟩
    intro x hx y hy
    obtain rfl : _ = y := by simpa using hy
    have hne : chunks ≠ [] := by
      intro h0
      rw [h0] at hx
      simp at hx
    have hx' : chunks.getLast hne = x := by
      rw [List.getLast?_eq_getLast chunks hne] at hx
      simpa using hx
    show startIdx = x.end_sentence + 1
    rw [← hx']
    exact ((hheadlast hne).2).symm
  · intro h
    cases chunks with
    | nil =>
      refine ⟨?_, ?_⟩
      · simp only [List.nil_append, List.head_cons]
        exact hempty rfl
      · simp only [List.nil_append]
        rfl
    | cons a as =>
      refine ⟨?_, ?_⟩
      · show a.start_sentence = 0
        exact (hheadlast (by simp)).1
      · rw [getLast_append_singleton]
  · intro h
    simp at h

/-- Processing sentence `i` preserves the semantic chunker's loop invariant. -/
lemma semInv_step (cs : ℤ) (θ : ℚ) (sim : ℕ → ℚ) (sents : List String) (i : ℕ)
    (s : String) (l2 : List String) (hd : sents.drop i = s :: l2)
    (st : SemState) (hinv : SemInv sim sents.length sents i st) :
    SemInv sim sents.length sents (i + 1) (semStep cs θ sim sents.length st i s) := by
  obtain ⟨hsi, hitot, hcur, hcur0, hsims, hids, hgood, hchain⟩ := hinv
  have hi : i < sents.length := by
    have := List.length_drop i sents
    rw [hd] at this
    simp at this
    omega
  have htake1 : (sents.drop i).take 1 = [s] := by rw [hd]; rfl
  have hgetI : sents[i]? = some s := by
    have := List.getElem?_drop sents i 0
    rw [hd] at this
    simpa using this.symm
  have hslice_ext : ∀ a, a ≤ i →
      (sents.drop a).take (i - a) ++ [s] = (sents.drop a).take (i + 1 - a) := by
    intro a ha
    have h1 : i + 1 - a = (i - a) + 1 := by omega
    rw [h1, List.take_succ]
    congr 1
    rw [List.getElem?_drop]
    have h2 : a + (i - a) = i := by omega
    rw [h2, hgetI]
    rfl
  by_cases hcure : st.cur = []
  · -- first sentence of a chunk: added unconditionally
    have hstart : st.startIdx = i := hcur0 hcure
    rw [semStep_first cs θ sim sents.length st i s hcure]
    refine ⟨by show st.startIdx ≤ i + 1; omega, by omega, ?_, by simp, ?_, hids, hgood, ?_⟩
    · show [s] = (sents.drop st.startIdx).take (i + 1 - st.startIdx)
      rw [hstart]
      have : i + 1 - i = 1 := by omega
      rw [this, htake1]
    · show st.simsIn = (List.range' (st.startIdx + 1) (i + 1 - st.startIdx - 1)).map sim
      rw [hsims, hstart]
      have h0 : i - i - 1 = 0 := by omega
      have h1 : i + 1 - i - 1 = 0 := by omega
      rw [h0, h1]
    · exact hchain
  · have hstartlt : st.startIdx < i := by
      rcases Nat.lt_or_ge st.startIdx i with h | h
      · exact h
      · exfalso
        apply hcure
        rw [hcur]
        have : i - st.startIdx = 0 := by omega
        rw [this]
        rfl
    have hipos : 0 < i := by omega
    have hcurlen : st.cur = (sents.drop st.startIdx).take (i - st.startIdx) := hcur
    by_cases hb : (st.wc : ℤ) + wordCount s > cs
    · -- budget cut
      rw [semStep_budget_cut cs θ sim sents.length st i s hcure hb]
      obtain ⟨hids2, hgood2, hchain2⟩ := finalizeChunk_inv sim sents.length sents st.chunks
        st.cur st.startIdx (i - 1) st.simsIn hids hgood hchain (by omega) (by omega)
        (by rw [hcur]; congr 1; omega) (by rw [hsims]; congr 2; omega)
      refine ⟨by show i ≤ i + 1; omega, by omega, ?_, by simp, ?_, hids2, hgood2, ?_⟩
      · show [s] = (sents.drop i).take (i + 1 - i)
        have : i + 1 - i = 1 := by omega
        rw [this, htake1]
      · show ([] : List ℚ) = (List.range' (i + 1) (i + 1 - i - 1)).map sim
        have : i + 1 - i - 1 = 0 := by omega
        rw [this]
        rfl
      · show semChain _ i
        have : i - 1 + 1 = i := by omega
        rwa [this] at hchain2
    · by_cases hsimlt : sim i < θ
      · -- semantic break
        rw [semStep_sim_cut cs θ sim sents.length st i s hcure hb hipos hsimlt]
        obtain ⟨hids2, hgood2, hchain2⟩ := finalizeChunk_inv sim sents.length sents st.chunks
          st.cur st.startIdx (i - 1) st.simsIn hids hgood hchain (by omega) (by omega)
          (by rw [hcur]; congr 1; omega) (by rw [hsims]; congr 2; omega)
        refine ⟨by show i ≤ i + 1; omega, by omega, ?_, by simp, ?_, hids2, hgood2, ?_⟩
        · show [s] = (sents.drop i).take (i + 1 - i)
          have : i + 1 - i = 1 := by omega
          rw [this, htake1]
        · show ([] : List ℚ) = (List.range' (i + 1) (i + 1 - i - 1)).map sim
          have : i + 1 - i - 1 = 0 := by omega
          rw [this]
          rfl
        · show semChain _ i
          have : i - 1 + 1 = i := by omega
          rwa [this] at hchain2
      · -- same chunk: record the similarity and extend
        rw [semStep_keep cs θ sim sents.length st i s hcure hb hipos hsimlt]
        refine ⟨by show st.startIdx ≤ i + 1; omega, by omega, ?_, ?_, ?_, hids, hgood, hchain⟩
        · show st.cur ++ [s] = (sents.drop st.startIdx).take (i + 1 - st.startIdx)
          rw [hcur]
          exact hslice_ext st.startIdx (by omega)
        · intro hemp
          simp at hemp
        · show st.simsIn ++ [sim i] =
            (List.range' (st.startIdx + 1) (i + 1 - st.startIdx - 1)).map sim
          rw [hsims]
          have h1 : i + 1 - st.startIdx - 1 = (i - st.startIdx - 1) + 1 := by omega
          rw [h1, List.range'_concat, List.map_append]
          have h2 : st.startIdx + 1 + 1 * (i - st.startIdx - 1) = i := by omega
          rw [h2]
          rfl

/-- The invariant propagates through the whole sentence loop of the semantic
chunker. -/
lemma semRun_inv (cs : ℤ) (θ : ℚ) (sim : ℕ → ℚ) (sents : List String) :
    ∀ (l : List String) (i : ℕ) (st : SemState), sents.drop i = l →
      SemInv sim sents.length sents i st →
      SemInv sim sents.length sents (i + l.length)
        (semRun cs θ sim sents.length i l st) := by
  intro l
  induction l with
  | nil =>
    intro i st _ hinv
    simpa [semRun] using hinv
  | cons s l2 ih =>
    intro i st hd hinv
    have hd' : sents.drop (i + 1) = l2 := by
      have h1 : (sents.drop i).drop 1 = sents.drop (i + 1) := List.drop_drop 1 i sents
      rw [← h1, hd]
      rfl
    have hstep := semInv_step cs θ sim sents i s l2 hd st hinv
    have hrec := ih (i + 1) _ hd' hstep
    have harith : i + (s :: l2).length = (i + 1) + l2.length := by
      rw [List.length_cons]
      omega
    rw [harith]
    exact hrec

/-- The chunk-list facts hold of `SemanticChunker.chunk`'s final output, with
the partition reaching `total_sentences`. -/
lemma semanticChunk_inv (cs : ℤ) (θ : ℚ) (sim : ℕ → ℚ) (sents : List String) :
    ((semanticChunk cs θ sim sents).map SemChunk.id =
      List.range (semanticChunk cs θ sim sents).length) ∧
    (∀ c ∈ semanticChunk cs θ sim sents, GoodSem sim sents.length sents c) ∧
    semChain (semanticChunk cs θ sim sents) sents.length := by
  by_cases h0 : sents = []
  · subst h0
    exact ⟨rfl, by simp [semanticChunk], List.chain'_nil, fun h => absurd rfl h, fun _ => rfl⟩
  · have hinit : SemInv sim sents.length sents 0 ⟨[], [], [], 0, 0⟩ :=
      ⟨Nat.zero_le 0, Nat.zero_le _, rfl, fun _ => rfl, rfl, rfl, by simp,
        List.chain'_nil, fun h => absurd rfl h, fun _ => rfl⟩
    have hrun := semRun_inv cs θ sim sents sents 0 ⟨[], [], [], 0, 0⟩ rfl hinit
    rw [Nat.zero_add] at hrun
    obtain ⟨hsi, hitot, hcur, hcur0, hsims, hids, hgood, hchain⟩ := hrun
    simp only [semanticChunk, if_neg h0]
    by_cases hce : (semRun cs θ sim sents.length 0 sents ⟨[], [], [], 0, 0⟩).cur = []
    · rw [if_pos hce]
      have hstart := hcur0 hce
      refine ⟨hids, hgood, ?_⟩
      have h2 := hchain
      rw [hstart] at h2
      exact h2
    · rw [if_neg hce]
      have hslt : (semRun cs θ sim sents.length 0 sents ⟨[], [], [], 0, 0⟩).startIdx <
          sents.length := by
        rcases Nat.lt_or_ge (semRun cs θ sim sents.length 0 sents ⟨[], [], [], 0, 0⟩).startIdx
          sents.length with h | h
        · exact h
        · exfalso
          apply hce
          rw [hcur]
          have : sents.length -
              (semRun cs θ sim sents.length 0 sents ⟨[], [], [], 0, 0⟩).startIdx = 0 := by
            omega
          rw [this]
          rfl
      have htpos : 1 ≤ sents.length := by
        cases sents with
        | nil => exact absurd rfl h0
        | cons a as => simp
      obtain ⟨hids2, hgood2, hchain2⟩ := finalizeChunk_inv sim sents.length sents
        (semRun cs θ sim sents.length 0 sents ⟨[], [], [], 0, 0⟩).chunks
        (semRun cs θ sim sents.length 0 sents ⟨[], [], [], 0, 0⟩).cur
        (semRun cs θ sim sents.length 0 sents ⟨[], [], [], 0, 0⟩).startIdx
        (sents.length - 1)
        (semRun cs θ sim sents.length 0 sents ⟨[], [], [], 0, 0⟩).simsIn
        hids hgood hchain (by omega) (by omega)
        (by rw [hcur]; congr 1; omega) (by rw [hsims]; congr 2; omega)
      have hfix : sents.length - 1 + 1 = sents.length := by omega
      rw [hfix] at hchain2
      exact ⟨hids2, hgood2, hchain2⟩

lemma round3_ratMean_nine : round3 (ratMean [9/10]) = 9/10 := by
  norm_num [ratMean, round3, roundHalfEven, ratFloor]

lemma round3_ratMean_nil : round3 (ratMean []) = 1 := by
  norm_num [ratMean, round3, roundHalfEven, ratFloor]

/-- Claim C4: for every candidate sentence arriving at a non-empty current
chunk, the word-budget rule is checked first — overflow closes the chunk and
the similarity check is skipped because the refreshed chunk is empty — and
otherwise the similarity of the previous and current sentences is compared
with the threshold: strictly below closes the chunk, at or above records the
value as a same-chunk sample.  Either condition alone forces a new chunk,
every emitted chunk contains at least one sentence, and with stub
similarities `sim(A,B) = 9/10`, `sim(B,C) = 3/10` and threshold `1/2`,
chunking `A. B. C.` yields exactly the chunks `{A, B}` and `{C}`. -/
theorem C4_semantic_cut_conditions :
    (∀ (cs : ℤ) (θ : ℚ) (sim : ℕ → ℚ) (total : ℕ) (st : SemState) (i : ℕ) (s : String),
      st.cur ≠ [] → (st.wc : ℤ) + wordCount s > cs →
        semStep cs θ sim total st i s =
          { chunks := finalizeChunk st.chunks st.cur st.startIdx (i - 1) st.simsIn total
            cur := [s], simsIn := [], startIdx := i, wc := wordCount s }) ∧
    (∀ (cs : ℤ) (θ : ℚ) (sim : ℕ → ℚ) (total : ℕ) (st : SemState) (i : ℕ) (s : String),
      st.cur ≠ [] → ¬((st.wc : ℤ) + wordCount s > cs) → 0 < i → sim i < θ →
        semStep cs θ sim total st i s =
          { chunks := finalizeChunk st.chunks st.cur st.startIdx (i - 1) st.simsIn total
            cur := [s], simsIn := [], startIdx := i, wc := wordCount s }) ∧
    (∀ (cs : ℤ) (θ : ℚ) (sim : ℕ → ℚ) (total : ℕ) (st : SemState) (i : ℕ) (s : String),
      st.cur ≠ [] → ¬((st.wc : ℤ) + wordCount s > cs) → 0 < i → ¬(sim i < θ) →
        semStep cs θ sim total st i s =
          { chunks := st.chunks, cur := st.cur ++ [s], simsIn := st.simsIn ++ [sim i]
            startIdx := st.startIdx, wc := st.wc + wordCount s }) ∧
    (∀ (cs : ℤ) (θ : ℚ) (sim : ℕ → ℚ) (sents : List String),
      ∀ c ∈ semanticChunk cs θ sim sents, c.start_sentence ≤ c.end_sentence) ∧
    (semanticChunk 500 (1/2) (fun i => if i = 1 then 9/10 else if i = 2 then 3/10 else 0)
        ["A.", "B.", "C."] =
      [⟨0, "A. B.", 0, 1, 9/10, 3⟩, ⟨1, "C.", 2, 2, 1, 3⟩]) := by
  refine ⟨semStep_budget_cut, semStep_sim_cut, semStep_keep, ?_, ?_⟩
  · intro cs θ sim sents c hc
    exact ((semanticChunk_inv cs θ sim sents).2.1 c hc).1
  · set f : ℕ → ℚ := fun i => if i = 1 then 9/10 else if i = 2 then 3/10 else 0 with hf
    have h0 : semStep 500 (1/2) f 3 ⟨[], [], [], 0, 0⟩ 0 "A." = ⟨[], ["A."], [], 0, 1⟩ := by
      rfl
    have h1 : semStep 500 (1/2) f 3 ⟨[], ["A."], [], 0, 1⟩ 1 "B." =
        ⟨[], ["A.", "B."], [9/10], 0, 2⟩ := by
      rw [semStep_keep 500 (1/2) f 3 ⟨[], ["A."], [], 0, 1⟩ 1 "B." (by simp) (by decide)
        (by decide) (by rw [hf]; norm_num)]
      show (⟨[], ["A."] ++ ["B."], [] ++ [f 1], 0, 1 + wordCount "B."⟩ : SemState) = _
      rw [hf]
      norm_num
      decide
    have h2 : semStep 500 (1/2) f 3 ⟨[], ["A.", "B."], [9/10], 0, 2⟩ 2 "C." =
        ⟨finalizeChunk [] ["A.", "B."] 0 1 [9/10] 3, ["C."], [], 2, 1⟩ := by
      rw [semStep_sim_cut 500 (1/2) f 3 ⟨[], ["A.", "B."], [9/10], 0, 2⟩ 2 "C." (by simp)
        (by decide) (by decide) (by rw [hf]; norm_num)]
      rfl
    show semanticChunk 500 (1/2) f ["A.", "B.", "C."] = _
    have hne : ¬((["A.", "B.", "C."] : List String) = []) := by simp
    simp only [semanticChunk, if_neg hne, semRun, List.length_cons, List.length_nil,
      Nat.zero_add, Nat.reduceAdd]
    rw [h0, h1, h2]
    rw [if_neg (by simp)]
    show finalizeChunk (finalizeChunk [] ["A.", "B."] 0 1 [9/10] 3) ["C."] 2 2 [] 3 = _
    unfold finalizeChunk
    simp only [List.nil_append, List.length_nil, List.length_cons, SemChunk.mk.injEq,
      round3_ratMean_nine, round3_ratMean_nil]
    norm_num
    exact ⟨rfl, rfl⟩

/-- Witness for C4: a budget cut, a recorded same-chunk step, and a
non-empty emitted chunk, at concrete states. -/
theorem C4_semantic_cut_conditions_witness :
    semStep 3 0 (fun _ => 0) 2 ⟨[], ["x"], [], 0, 5⟩ 1 "y" =
      ⟨finalizeChunk [] ["x"] 0 0 [] 2, ["y"], [], 1, 1⟩ ∧
    semStep 500 0 (fun _ => 0) 2 ⟨[], ["x"], [], 0, 1⟩ 1 "y" =
      ⟨[], ["x", "y"], [0], 0, 2⟩ ∧
    ∃ c ∈ semanticChunk 5 0 (fun _ => 0) ["Hello."], c.start_sentence ≤ c.end_sentence := by
  refine ⟨?_, ?_, ?_⟩
  · exact C4_semantic_cut_conditions.1 3 0 (fun _ => 0) 2 ⟨[], ["x"], [], 0, 5⟩ 1 "y"
      (by simp) (by decide)
  · exact C4_semantic_cut_conditions.2.2.1 500 0 (fun _ => 0) 2 ⟨[], ["x"], [], 0, 1⟩ 1 "y"
      (by simp) (by decide) (by decide) (by decide)
  · refine ⟨⟨0, "Hello.", 0, 0, round3 (ratMean []), 1⟩, ?_, ?_⟩
    · show _ ∈ [(⟨0, "Hello.", 0, 0, round3 (ratMean []), 1⟩ : SemChunk)]
      exact List.mem_singleton.mpr rfl
    · exact C4_semantic_cut_conditions.2.2.2.1 5 0 (fun _ => 0) ["Hello."] _
        (show _ ∈ [(⟨0, "Hello.", 0, 0, round3 (ratMean []), 1⟩ : SemChunk)] from
          List.mem_singleton.mpr rfl)

/-- Claim C9: every record of the semantic chunker carries `start_sentence`,
`end_sentence` and `total_sentences` metadata, and `avg_similarity` equal to
the mean of exactly the consecutive-pair similarities recorded inside the
chunk (`sim j` for `j` in `(start_sentence, end_sentence]`), rounded to three
decimal places, defaulting to `1` for a single-sentence chunk. -/
theorem C9_semantic_avg_similarity (cs : ℤ) (θ : ℚ) (sim : ℕ → ℚ) (sents : List String) :
    ∀ c ∈ semanticChunk cs θ sim sents,
      c.start_sentence ≤ c.end_sentence ∧
      c.end_sentence < sents.length ∧
      c.total_sentences = sents.length ∧
      c.avg_similarity = round3 (ratMean
        ((List.range' (c.start_sentence + 1) (c.end_sentence - c.start_sentence)).map sim)) ∧
      (c.start_sentence = c.end_sentence → c.avg_similarity = 1) := by
  intro c hc
  obtain ⟨h1, h2, h3, _, h5⟩ := (semanticChunk_inv cs θ sim sents).2.1 c hc
  refine ⟨h1, h2, h3, h5, ?_⟩
  intro heq
  rw [h5, heq]
  have h0 : c.end_sentence - c.end_sentence = 0 := by omega
  rw [h0]
  exact round3_ratMean_nil

/-- Witness for C9 on a one-sentence input: the single chunk defaults to
average similarity `1`. -/
theorem C9_semantic_avg_similarity_witness :
    (⟨0, "Hello.", 0, 0, round3 (ratMean []), 1⟩ : SemChunk) ∈
      semanticChunk 7 0 (fun _ => 0) ["Hello."] ∧
    (⟨0, "Hello.", 0, 0, round3 (ratMean []), 1⟩ : SemChunk).avg_similarity = 1 := by
  have hmem : (⟨0, "Hello.", 0, 0, round3 (ratMean []), 1⟩ : SemChunk) ∈
      semanticChunk 7 0 (fun _ => 0) ["Hello."] := by
    show _ ∈ [(⟨0, "Hello.", 0, 0, round3 (ratMean []), 1⟩ : SemChunk)]
    exact List.mem_singleton.mpr rfl
  exact ⟨hmem,
    (C9_semantic_avg_similarity 7 0 (fun _ => 0) ["Hello."] _ hmem).2.2.2.2 rfl⟩

/-- Coverage for the semantic chunker's partition chain. -/
lemma semChunks_cover : ∀ (l : List SemChunk),
    List.Chain' (fun a b => b.start_sentence ≤ a.end_sentence + 1) l →
    (∀ h : l ≠ [], (l.head h).start_sentence = 0) →
    ∀ (hne : l ≠ []) (x : ℕ), x ≤ (l.getLast hne).end_sentence →
      ∃ c ∈ l, c.start_sentence ≤ x ∧ x ≤ c.end_sentence := by
  intro l
  induction l using List.reverseRecOn with
  | nil => intro _ _ hne; exact absurd rfl hne
  | append_singleton l2 c ih =>
    intro hchain hhead hne x hx
    rw [getLast_append_singleton] at hx
    by_cases hcx : c.start_sentence ≤ x
    · exact ⟨c, by simp, hcx, hx⟩
    · have hl2ne : l2 ≠ [] := by
        intro h0
        subst h0
        have := hhead hne
        simp only [List.nil_append, List.head_cons] at this
        omega
      rw [List.chain'_append] at hchain
      obtain ⟨hchain2, _, hlink⟩ := hchain
      have hrel : c.start_sentence ≤ (l2.getLast hl2ne).end_sentence + 1 := by
        apply hlink
        · rw [List.getLast?_eq_getLast l2 hl2ne]
          simp
        · simp
      have hhead2 : ∀ h : l2 ≠ [], (l2.head h).start_sentence = 0 := by
        intro h
        have heq : (l2 ++ [c]).head hne = l2.head h := by
          cases l2 with
          | nil => exact absurd rfl h
          | cons a as => rfl
        rw [← heq]
        exact hhead hne
      obtain ⟨d, hd, hdx⟩ := ih hchain2 hhead2 hl2ne x (by omega)
      exact ⟨d, by simp [hd], hdx⟩

/-- Claim C6: for all three chunkers under a valid configuration, emitted
`id` fields are exactly `0, 1, 2, …` with no gaps, `start`/`end` ranges are
non-decreasing across consecutive chunks, and the union of the emitted
word/sentence index ranges covers every index of the input at least once. -/
theorem C6_ids_ordering_coverage :
    (∀ (cs ov : ℤ) (text : String), 1 ≤ cs → 0 ≤ ov → ov < cs →
      ∃ chunks, fixedChunk cs ov text = .ok chunks ∧
        chunks.map FixedChunk.id = List.range chunks.length ∧
        (∀ k (hk1 : k + 1 < chunks.length) (hk2 : k < chunks.length),
          (chunks.get ⟨k, hk2⟩).start_word ≤ (chunks.get ⟨k + 1, hk1⟩).start_word ∧
          (chunks.get ⟨k, hk2⟩).end_word ≤ (chunks.get ⟨k + 1, hk1⟩).end_word) ∧
        (∀ x : ℕ, x < (pySplit text).length →
          ∃ c ∈ chunks, c.start_word ≤ (x : ℤ) ∧ (x : ℤ) < c.end_word)) ∧
    (∀ (cs ov : ℤ) (sents : List String), 1 ≤ cs → 0 ≤ ov →
      (sentenceChunk cs ov sents).map SentChunk.id =
        List.range (sentenceChunk cs ov sents).length ∧
      (∀ k (hk1 : k + 1 < (sentenceChunk cs ov sents).length)
          (hk2 : k < (sentenceChunk cs ov sents).length),
        ((sentenceChunk cs ov sents).get ⟨k, hk2⟩).start_sentence ≤
          ((sentenceChunk cs ov sents).get ⟨k + 1, hk1⟩).start_sentence ∧
        ((sentenceChunk cs ov sents).get ⟨k, hk2⟩).end_sentence ≤
          ((sentenceChunk cs ov sents).get ⟨k + 1, hk1⟩).end_sentence) ∧
      (∀ x : ℕ, x < sents.length → ∃ c ∈ sentenceChunk cs ov sents,
        c.start_sentence ≤ x ∧ x ≤ c.end_sentence)) ∧
    (∀ (cs : ℤ) (θ : ℚ) (sim : ℕ → ℚ) (sents : List String), 1 ≤ cs →
      (semanticChunk cs θ sim sents).map SemChunk.id =
        List.range (semanticChunk cs θ sim sents).length ∧
      (∀ k (hk1 : k + 1 < (semanticChunk cs θ sim sents).length)
          (hk2 : k < (semanticChunk cs θ sim sents).length),
        ((semanticChunk cs θ sim sents).get ⟨k, hk2⟩).start_sentence ≤
          ((semanticChunk cs θ sim sents).get ⟨k + 1, hk1⟩).start_sentence ∧
        ((semanticChunk cs θ sim sents).get ⟨k, hk2⟩).end_sentence ≤
          ((semanticChunk cs θ sim sents).get ⟨k + 1, hk1⟩).end_sentence) ∧
      (∀ x : ℕ, x < sents.length → ∃ c ∈ semanticChunk cs θ sim sents,
        c.start_sentence ≤ x ∧ x ≤ c.end_sentence)) := by
  refine ⟨?_, ?_, ?_⟩
  · -- FixedChunker
    intro cs ov text h1 h2 h3
    have hstep : (0 : ℤ) < cs - ov := by omega
    obtain ⟨chunks, hok, hlen, hget⟩ := fixedChunkWords_spec cs ov (pySplit text) h1 h2 h3
    obtain ⟨chunks2, hok2, hcov⟩ := fixedChunkWords_cover cs ov (pySplit text) h1 h2 h3
    have hchunks : chunks2 = chunks := by
      rw [hok] at hok2
      exact (Except.ok.injEq _ _).mp hok2.symm
    subst hchunks
    refine ⟨chunks2, hok, ?_, ?_, hcov⟩
    · apply List.ext_get
      · simp
      · intro k hk1 hk2
        simp only [List.get_map, List.get_range]
        have := (hget k (by simpa using hk1)).1
        rw [this]
    · intro k hk1 hk2
      obtain ⟨hc1, _⟩ := hget (k + 1) hk1
      obtain ⟨hc2, _⟩ := hget k hk2
      rw [hc1, hc2]
      have hmul : (k : ℤ) * (cs - ov) ≤ ((k : ℕ) + 1 : ℕ) * (cs - ov) := by
        have : ((k : ℕ) : ℤ) ≤ ((k : ℕ) + 1 : ℕ) := by push_cast; omega
        exact mul_le_mul_of_nonneg_right this (le_of_lt hstep)
      constructor
      · simpa using hmul
      · simp only
        push_cast at hmul ⊢
        omega
  · -- SentenceChunker
    intro cs ov sents _ _
    obtain ⟨hids, hgood, hchain, hhead, _, hacc0, hlast⟩ := sentenceChunk_inv cs ov sents
    refine ⟨hids, ?_, ?_⟩
    · intro k hk1 hk2
      rw [List.chain'_iff_get] at hchain
      obtain ⟨_, _, hlt, hle⟩ := hchain k (by omega)
      exact ⟨le_of_lt hlt, hle⟩
    · intro x hx
      have hne : sentenceChunk cs ov sents ≠ [] := by
        intro h0
        have := hacc0 h0
        omega
      obtain ⟨hcursor, _⟩ := hlast hne
      obtain ⟨hse, het, _⟩ := hgood _ (List.getLast_mem hne)
      apply sentChunks_cover _ (hchain.imp (fun a b h => h.2.1)) hhead hne x
      omega
  · -- SemanticChunker
    intro cs θ sim sents _
    obtain ⟨hids, hgood, hchain, hheadlast, hempty⟩ := semanticChunk_inv cs θ sim sents
    refine ⟨hids, ?_, ?_⟩
    · intro k hk1 hk2
      rw [List.chain'_iff_get] at hchain
      have hstep := hchain k (by omega)
      have hmem : (semanticChunk cs θ sim sents).get ⟨k, hk2⟩ ∈ semanticChunk cs θ sim sents :=
        List.get_mem _ _ _
      obtain ⟨hse, _, _⟩ := hgood _ hmem
      have hmem1 : (semanticChunk cs θ sim sents).get ⟨k + 1, hk1⟩ ∈
          semanticChunk cs θ sim sents := List.get_mem _ _ _
      obtain ⟨hse1, _, _⟩ := hgood _ hmem1
      constructor
      · omega
      · omega
    · intro x hx
      have hne : semanticChunk cs θ sim sents ≠ [] := by
        intro h0
        have := hempty h0
        omega
      have hlast := (hheadlast hne).2
      apply semChunks_cover _ ?_ (fun h => (hheadlast h).1) hne x (by omega)
      exact hchain.imp (fun a b h => by omega)

/-- Witness for C6 at concrete inputs for each of the three chunkers. -/
theorem C6_ids_ordering_coverage_witness :
    (∃ chunks, fixedChunk 2 0 "a b c" = .ok chunks ∧
      chunks.map FixedChunk.id = List.range chunks.length) ∧
    (sentenceChunk 5 1 ["a.", "b."]).map SentChunk.id =
      List.range (sentenceChunk 5 1 ["a.", "b."]).length ∧
    (∃ c ∈ semanticChunk 5 0 (fun _ => 0) ["a.", "b."],
      c.start_sentence ≤ 1 ∧ 1 ≤ c.end_sentence) := by
  refine ⟨?_, ?_, ?_⟩
  · obtain ⟨chunks, hok, hids, _, _⟩ := C6_ids_ordering_coverage.1 2 0 "a b c"
      (by norm_num) (by norm_num) (by norm_num)
    exact ⟨chunks, hok, hids⟩
  · exact (C6_ids_ordering_coverage.2.1 5 1 ["a.", "b."] (by norm_num) (by norm_num)).1
  · exact (C6_ids_ordering_coverage.2.2 5 0 (fun _ => 0) ["a.", "b."] (by norm_num)).2.2 1
      (by decide)
